import Mathlib

/-!
Verification of the chess rules engine (`src/chess/models/`): a shallow
embedding of the domain types (`types.ts`), the board (`Board.ts`), the two
move-validator variants (`MoveValidator.ts` and the `MoveValidator` class
embedded in `Board.ts`), the game state machine (`Game.ts`), and the position
serializer (`StockfishService.ts`), together with theorems about the claims
of the specification.

TypeScript `Position` values are integer pairs; we embed coordinates as `Int`
so that out-of-range arithmetic (`from.y + direction`, …) behaves exactly as
in the source.  Piece arrays become `List Piece`; `Array.prototype.find`
becomes `List.find?` (first match), `filter` stays `filter`, and in-place
mutation of a found element becomes replacement of the first matching
element.  The two path-clearance `while` loops are embedded with a fuel
parameter (64, far more than any terminating run of the source needs; the
source loops forever on inputs where the fuel runs out, and no claim below
depends on those runs).
-/

namespace Chess

/-- `PieceType` from `types.ts`. -/
inductive PieceType where
  | PAWN | KNIGHT | BISHOP | ROOK | QUEEN | KING
deriving DecidableEq, Repr

/-- `PieceColor` from `types.ts`. -/
inductive PieceColor where
  | WHITE | BLACK
deriving DecidableEq, Repr

/-- `GameStatus` from `types.ts`. -/
inductive GameStatus where
  | ACTIVE | CHECK | CHECKMATE | STALEMATE | DRAW
deriving DecidableEq, Repr

open PieceType PieceColor GameStatus

/-- `Position` from `types.ts`: `{x, y}`, each a JS number (integral here). -/
structure Position where
  x : Int
  y : Int
deriving DecidableEq, Repr

/-- `Piece` from `types.ts`.  The optional `hasMoved` flag is falsy when
absent, so it is embedded as a plain `Bool` (missing = `false`). -/
structure Piece where
  ptype : PieceType
  color : PieceColor
  pos : Position
  hasMoved : Bool
deriving DecidableEq, Repr

/-- `Move` from `types.ts`; optional boolean flags are falsy when absent. -/
structure Move where
  mfrom : Position
  mto : Position
  capturedPiece : Option Piece
  promotion : Option PieceType
  isCastling : Bool
  isEnPassant : Bool
deriving DecidableEq, Repr

/-- The opponent of a color (`color === WHITE ? BLACK : WHITE`, used
throughout the source). -/
def opponent : PieceColor → PieceColor
  | WHITE => BLACK
  | BLACK => WHITE

/-- `Board.getPieceAt`: first piece of the array whose position matches. -/
def getPieceAt (l : List Piece) (pos : Position) : Option Piece :=
  l.find? (fun p => decide (p.pos = pos))

/-- `Board.removePiece`: keeps every piece not at `pos` (filter). -/
def removePiece (l : List Piece) (pos : Position) : List Piece :=
  l.filter (fun p => !decide (p.pos = pos))

/-- `Board.updatePiecePosition`: mutates the first piece found at `from` so
that its position becomes `to`. -/
def updatePiecePosition : List Piece → Position → Position → List Piece
  | [], _, _ => []
  | p :: rest, f, t =>
    if p.pos = f then { p with pos := t } :: rest
    else p :: updatePiecePosition rest f t

/-- The tail of `Board.movePiece` (lines 72–77): `updatePiecePosition(from,
to)` followed by `piece.hasMoved = true` on the very piece object that was
found at `from` — i.e. the first piece at `from` (if any) is replaced by the
same piece at `to` with its moved-flag set.  (When no piece is at `from` the
array is untouched; the flag assignment then hits the object that
`removePiece` already dropped from the array.) -/
def updatePieceAndMark : List Piece → Position → Position → List Piece
  | [], _, _ => []
  | p :: rest, f, t =>
    if p.pos = f then { p with pos := t, hasMoved := true } :: rest
    else p :: updatePieceAndMark rest f t

/-- The standard starting arrangement pushed by `Board.resetBoard`, in the
exact push order of the source (pawns interleaved by file, then rooks,
knights, bishops, queens, kings; pieces pushed without a `hasMoved` field get
the falsy default). -/
def standardPieces : List Piece :=
  [ ⟨PAWN, WHITE, ⟨0, 1⟩, false⟩, ⟨PAWN, BLACK, ⟨0, 6⟩, false⟩,
    ⟨PAWN, WHITE, ⟨1, 1⟩, false⟩, ⟨PAWN, BLACK, ⟨1, 6⟩, false⟩,
    ⟨PAWN, WHITE, ⟨2, 1⟩, false⟩, ⟨PAWN, BLACK, ⟨2, 6⟩, false⟩,
    ⟨PAWN, WHITE, ⟨3, 1⟩, false⟩, ⟨PAWN, BLACK, ⟨3, 6⟩, false⟩,
    ⟨PAWN, WHITE, ⟨4, 1⟩, false⟩, ⟨PAWN, BLACK, ⟨4, 6⟩, false⟩,
    ⟨PAWN, WHITE, ⟨5, 1⟩, false⟩, ⟨PAWN, BLACK, ⟨5, 6⟩, false⟩,
    ⟨PAWN, WHITE, ⟨6, 1⟩, false⟩, ⟨PAWN, BLACK, ⟨6, 6⟩, false⟩,
    ⟨PAWN, WHITE, ⟨7, 1⟩, false⟩, ⟨PAWN, BLACK, ⟨7, 6⟩, false⟩,
    ⟨ROOK, WHITE, ⟨0, 0⟩, false⟩, ⟨ROOK, WHITE, ⟨7, 0⟩, false⟩,
    ⟨ROOK, BLACK, ⟨0, 7⟩, false⟩, ⟨ROOK, BLACK, ⟨7, 7⟩, false⟩,
    ⟨KNIGHT, WHITE, ⟨1, 0⟩, false⟩, ⟨KNIGHT, WHITE, ⟨6, 0⟩, false⟩,
    ⟨KNIGHT, BLACK, ⟨1, 7⟩, false⟩, ⟨KNIGHT, BLACK, ⟨6, 7⟩, false⟩,
    ⟨BISHOP, WHITE, ⟨2, 0⟩, false⟩, ⟨BISHOP, WHITE, ⟨5, 0⟩, false⟩,
    ⟨BISHOP, BLACK, ⟨2, 7⟩, false⟩, ⟨BISHOP, BLACK, ⟨5, 7⟩, false⟩,
    ⟨QUEEN, WHITE, ⟨3, 0⟩, false⟩, ⟨QUEEN, BLACK, ⟨3, 7⟩, false⟩,
    ⟨KING, WHITE, ⟨4, 0⟩, false⟩, ⟨KING, BLACK, ⟨4, 7⟩, false⟩ ]

/-- The en-passant test of `Board.movePiece` (lines 35–45): a pawn stepping
one file and one rank onto an unoccupied square captures en passant exactly
when a pawn (of either color — the source does not check) stands on
`(to.x, from.y)`; the result is that pawn, `none` otherwise. -/
def epHitOf (l : List Piece) (piece : Piece) (f t : Position) :
    Option Piece :=
  if piece.ptype = PAWN ∧ (f.x - t.x).natAbs = 1 ∧ (f.y - t.y).natAbs = 1
      ∧ getPieceAt l t = none then
    match getPieceAt l ⟨t.x, f.y⟩ with
    | some e => if e.ptype = PAWN then some e else none
    | none => none
  else none

/-- The castling side effect of `Board.movePiece` (lines 54–65): a king
moving two files relocates the piece found on the corner of its rank
(`x = 7` kingside, `x = 0` queenside), provided that piece is a rook, to
`from.x ± 1`. -/
def castleBoard (l1 : List Piece) (piece : Piece) (f t : Position) :
    List Piece :=
  if piece.ptype = KING ∧ (f.x - t.x).natAbs = 2 then
    match getPieceAt l1 ⟨if t.x > f.x then 7 else 0, f.y⟩ with
    | some rook =>
      if rook.ptype = ROOK then
        updatePiecePosition l1 ⟨if t.x > f.x then 7 else 0, f.y⟩
          ⟨if t.x > f.x then f.x + 1 else f.x - 1, f.y⟩
      else l1
    | none => l1
  else l1

/-- `Board.movePiece`.  Returns the move record (or `none` when no piece is
at `from`) and the piece array after the move, following the exact statement
order of the source: en-passant removal, promotion marking (record only),
castling rook relocation, capture removal, then position update plus
moved-flag. -/
def movePiece (l : List Piece) (f t : Position) : Option Move × List Piece :=
  match getPieceAt l f with
  | none => (none, l)
  | some piece =>
    let capturedPiece := getPieceAt l t
    let epHit := epHitOf l piece f t
    let isEnPassant := epHit.isSome
    let moveCaptured := match epHit with
      | some e => some e
      | none => capturedPiece
    let l1 := match epHit with
      | some _ => removePiece l ⟨t.x, f.y⟩
      | none => l
    let promotion : Option PieceType :=
      if piece.ptype = PAWN ∧ ((piece.color = WHITE ∧ t.y = 7)
          ∨ (piece.color = BLACK ∧ t.y = 0)) then some QUEEN else none
    let isCastling : Bool := piece.ptype = KING ∧ (f.x - t.x).natAbs = 2
    let l2 := castleBoard l1 piece f t
    let l3 := if capturedPiece.isSome ∧ ¬ isEnPassant then removePiece l2 t
      else l2
    let l4 := updatePieceAndMark l3 f t
    (some { mfrom := f, mto := t, capturedPiece := moveCaptured,
            promotion := promotion, isCastling := isCastling,
            isEnPassant := isEnPassant }, l4)

/-- `MoveValidator.isWithinBoard` (identical in both validator variants). -/
def isWithinBoard (p : Position) : Bool :=
  decide (0 ≤ p.x ∧ p.x < 8 ∧ 0 ≤ p.y ∧ p.y < 8)

/-- Loop body of `isStraightPathClear`: the `while` loop runs until the
current square equals the target (exit → clear) or an occupied square is hit
(→ blocked).  The fuel bounds the number of iterations; the source loops
forever past it (which no terminating source run reaches). -/
def straightPathClearAux (l : List Piece) (tx ty sx sy : Int) :
    Int → Int → Nat → Bool
  | _, _, 0 => true
  | cx, cy, fuel + 1 =>
    if cx = tx ∧ cy = ty then true
    else if (getPieceAt l ⟨cx, cy⟩).isSome then false
    else straightPathClearAux l tx ty sx sy (cx + sx) (cy + sy) fuel

/-- `MoveValidator.isStraightPathClear` (identical in both variants).  The
snapshot-based `isStraightPathClearWithPieces` of the `Board.ts` variant runs
the same loop with occupancy tested by `pieces.some` instead of
`getPieceAt`; both are "some piece of the array sits on this square", so the
same definition embeds both. -/
def isStraightPathClear (l : List Piece) (f t : Position) : Bool :=
  let dx := t.x - f.x
  let dy := t.y - f.y
  let sx : Int := if dx = 0 then 0 else if dx > 0 then 1 else -1
  let sy : Int := if dy = 0 then 0 else if dy > 0 then 1 else -1
  straightPathClearAux l t.x t.y sx sy (f.x + sx) (f.y + sy) 64

/-- Loop body of `isDiagonalPathClear`: exits (clear) as soon as either
coordinate reaches the target's. -/
def diagonalPathClearAux (l : List Piece) (tx ty sx sy : Int) :
    Int → Int → Nat → Bool
  | _, _, 0 => true
  | cx, cy, fuel + 1 =>
    if cx = tx ∨ cy = ty then true
    else if (getPieceAt l ⟨cx, cy⟩).isSome then false
    else diagonalPathClearAux l tx ty sx sy (cx + sx) (cy + sy) fuel

/-- `MoveValidator.isDiagonalPathClear` (identical in both variants; also
embeds `isDiagonalPathClearWithPieces`, cf. `isStraightPathClear`). -/
def isDiagonalPathClear (l : List Piece) (f t : Position) : Bool :=
  let sx : Int := if t.x - f.x > 0 then 1 else -1
  let sy : Int := if t.y - f.y > 0 then 1 else -1
  diagonalPathClearAux l t.x t.y sx sy (f.x + sx) (f.y + sy) 64

/-- `MoveValidator.isValidKnightMove` (identical in both variants). -/
def isValidKnightMove (f t : Position) : Bool :=
  decide (((t.x - f.x).natAbs = 1 ∧ (t.y - f.y).natAbs = 2)
    ∨ ((t.x - f.x).natAbs = 2 ∧ (t.y - f.y).natAbs = 1))

/-- `MoveValidator.isValidBishopMove` (identical in both variants). -/
def isValidBishopMove (l : List Piece) (f t : Position) : Bool :=
  if (t.x - f.x).natAbs ≠ (t.y - f.y).natAbs then false
  else isDiagonalPathClear l f t

/-- `MoveValidator.isValidRookMove` (identical in both variants). -/
def isValidRookMove (l : List Piece) (f t : Position) : Bool :=
  if f.x ≠ t.x ∧ f.y ≠ t.y then false
  else isStraightPathClear l f t

/-- `MoveValidator.isValidQueenMove` (identical in both variants). -/
def isValidQueenMove (l : List Piece) (f t : Position) : Bool :=
  if f.x = t.x ∨ f.y = t.y then isStraightPathClear l f t
  else if (t.x - f.x).natAbs = (t.y - f.y).natAbs then isDiagonalPathClear l f t
  else false

/-- `MoveValidator.canPawnAttackSquare` (identical in both variants). -/
def canPawnAttackSquare (pawn : Piece) (position : Position) : Bool :=
  let dir : Int := if pawn.color = WHITE then 1 else -1
  decide ((position.x - pawn.pos.x).natAbs = 1 ∧ position.y - pawn.pos.y = dir)

/-- `MoveValidator.canPieceAttackSquare` (identical in both variants): raw
attack test against the live board `l`. -/
def canPieceAttackSquare (l : List Piece) (piece : Piece)
    (position : Position) : Bool :=
  match piece.ptype with
  | PAWN => canPawnAttackSquare piece position
  | KNIGHT => isValidKnightMove piece.pos position
  | BISHOP => isValidBishopMove l piece.pos position
      && isDiagonalPathClear l piece.pos position
  | ROOK => isValidRookMove l piece.pos position
      && isStraightPathClear l piece.pos position
  | QUEEN => isValidQueenMove l piece.pos position
      && (isStraightPathClear l piece.pos position
          || isDiagonalPathClear l piece.pos position)
  | KING => decide ((position.x - piece.pos.x).natAbs ≤ 1
      ∧ (position.y - piece.pos.y).natAbs ≤ 1)

/-- `MoveValidator.isSquareUnderAttack` (identical in both variants). -/
def isSquareUnderAttack (l : List Piece) (position : Position)
    (defendingColor : PieceColor) : Bool :=
  l.any (fun piece => decide (piece.color = opponent defendingColor)
    && canPieceAttackSquare l piece position)

/-- `MoveValidator.isInCheck` (identical in both variants): find the king
(first match), default to not-in-check when absent. -/
def isInCheck (l : List Piece) (kingColor : PieceColor) : Bool :=
  match l.find? (fun p => decide (p.ptype = KING ∧ p.color = kingColor)) with
  | none => false
  | some king => isSquareUnderAttack l king.pos kingColor

/-- `MoveValidator.isValidKingMove` (identical in both variants): one step in
any direction, or castling (two files, unmoved king, unmoved rook on the
corner, clear path, transit squares not attacked). -/
def isValidKingMove (l : List Piece) (king : Piece) (t : Position) : Bool :=
  let f := king.pos
  let dx := (t.x - f.x).natAbs
  let dy := (t.y - f.y).natAbs
  if dx ≤ 1 ∧ dy ≤ 1 then true
  else if dy = 0 ∧ dx = 2 ∧ king.hasMoved = false then
    if t.x > f.x then
      match getPieceAt l ⟨7, f.y⟩ with
      | none => false
      | some rook =>
        if rook.ptype ≠ ROOK ∨ rook.hasMoved then false
        else isStraightPathClear l f ⟨6, f.y⟩
          && !isSquareUnderAttack l ⟨f.x + 1, f.y⟩ king.color
          && !isSquareUnderAttack l ⟨f.x + 2, f.y⟩ king.color
    else if t.x < f.x then
      match getPieceAt l ⟨0, f.y⟩ with
      | none => false
      | some rook =>
        if rook.ptype ≠ ROOK ∨ rook.hasMoved then false
        else isStraightPathClear l f ⟨1, f.y⟩
          && !isSquareUnderAttack l ⟨f.x - 1, f.y⟩ king.color
          && !isSquareUnderAttack l ⟨f.x - 2, f.y⟩ king.color
    else false
  else false

/-- `isValidPawnMove` of `MoveValidator.ts`: forward one (empty), double from
the starting row (both squares empty), or one-square diagonal with either an
enemy piece on the destination or — the en-passant branch — any opposing
pawn on `(to.x, from.y)`, with no rank or moved-flag condition. -/
def isValidPawnMoveA (l : List Piece) (pawn : Piece) (t : Position) : Bool :=
  let f := pawn.pos
  let dir : Int := if pawn.color = WHITE then 1 else -1
  let startingRow : Int := if pawn.color = WHITE then 1 else 6
  let epCheck : Bool :=
    match getPieceAt l ⟨t.x, f.y⟩ with
    | some e => decide (e.ptype = PAWN ∧ e.color ≠ pawn.color)
    | none => false
  if f.x = t.x ∧ t.y = f.y + dir then (getPieceAt l t).isNone
  else if f.x = t.x ∧ f.y = startingRow ∧ t.y = f.y + 2 * dir then
    (getPieceAt l ⟨f.x, f.y + dir⟩).isNone && (getPieceAt l t).isNone
  else if (t.x - f.x).natAbs = 1 ∧ t.y = f.y + dir then
    match getPieceAt l t with
    | some d => if d.color ≠ pawn.color then true else epCheck
    | none => epCheck
  else false

/-- `isValidPawnMove` of the validator embedded in `Board.ts`: as variant A,
but the en-passant branch additionally requires the candidate captured pawn
to stand on its double-step rank with its moved-flag set. -/
def isValidPawnMoveB (l : List Piece) (pawn : Piece) (t : Position) : Bool :=
  let f := pawn.pos
  let dir : Int := if pawn.color = WHITE then 1 else -1
  let startingRow : Int := if pawn.color = WHITE then 1 else 6
  let epCheck : Bool :=
    match getPieceAt l ⟨t.x, f.y⟩ with
    | some e =>
      if e.ptype = PAWN ∧ e.color ≠ pawn.color then
        let correctRank : Int := if e.color = WHITE then 3 else 4
        let startingRank : Int := if e.color = WHITE then 1 else 6
        decide (e.pos.y = correctRank ∧ (e.pos.y - startingRank).natAbs = 2
          ∧ e.hasMoved = true)
      else false
    | none => false
  if f.x = t.x ∧ t.y = f.y + dir then (getPieceAt l t).isNone
  else if f.x = t.x ∧ f.y = startingRow ∧ t.y = f.y + 2 * dir then
    (getPieceAt l ⟨f.x, f.y + dir⟩).isNone && (getPieceAt l t).isNone
  else if (t.x - f.x).natAbs = 1 ∧ t.y = f.y + dir then
    match getPieceAt l t with
    | some d => if d.color ≠ pawn.color then true else epCheck
    | none => epCheck
  else false

/-- `isValidMoveForPiece` of `MoveValidator.ts` (dispatch on piece kind). -/
def isValidMoveForPieceA (l : List Piece) (piece : Piece) (t : Position) :
    Bool :=
  match piece.ptype with
  | PAWN => isValidPawnMoveA l piece t
  | KNIGHT => isValidKnightMove piece.pos t
  | BISHOP => isValidBishopMove l piece.pos t
  | ROOK => isValidRookMove l piece.pos t
  | QUEEN => isValidQueenMove l piece.pos t
  | KING => isValidKingMove l piece t

/-- `isValidMoveForPiece` of the `Board.ts` validator. -/
def isValidMoveForPieceB (l : List Piece) (piece : Piece) (t : Position) :
    Bool :=
  match piece.ptype with
  | PAWN => isValidPawnMoveB l piece t
  | KNIGHT => isValidKnightMove piece.pos t
  | BISHOP => isValidBishopMove l piece.pos t
  | ROOK => isValidRookMove l piece.pos t
  | QUEEN => isValidQueenMove l piece.pos t
  | KING => isValidKingMove l piece t

/-- `wouldBeInCheck` of `MoveValidator.ts`: builds `new Board()` (the
standard starting arrangement), "copies" each live piece via
`tempBoard.movePiece(p.position, p.position)`, applies the candidate move to
that board and tests check there.  (Note `movePiece(p, p)` self-captures:
the piece found at `p` is recorded as captured and removed.) -/
def wouldBeInCheckA (l : List Piece) (f t : Position)
    (kingColor : PieceColor) : Bool :=
  let temp1 := l.foldl (fun tb p => (movePiece tb p.pos p.pos).2)
    standardPieces
  let temp2 := (movePiece temp1 f t).2
  isInCheck temp2 kingColor

/-- `isValidMove` of `MoveValidator.ts` (unconditional check-safety gate). -/
def isValidMoveA (l : List Piece) (f t : Position) (c : PieceColor) : Bool :=
  if !(isWithinBoard f && isWithinBoard t) then false
  else match getPieceAt l f with
    | none => false
    | some piece =>
      if piece.color ≠ c then false
      else
        let destSame : Bool := match getPieceAt l t with
          | some d => decide (d.color = piece.color)
          | none => false
        if destSame then false
        else if ¬ isValidMoveForPieceA l piece t then false
        else if wouldBeInCheckA l f t piece.color then false
        else true

/-- The shared simulation of `wouldBeInCheck`/`wouldMoveResolveCheck` in the
`Board.ts` validator (their bodies are textually identical up to the final
loop's polarity): deep-copy the array, find the mover's index, `splice` out
the piece at the destination (first match, if any), then assign the new
position *through the pre-splice index* — when the splice removed an earlier
element this updates the wrong piece, and when the index now points past the
end the source would throw (embedded as no change).  Returns `none` when no
piece is at `f` (both callers then return `false`). -/
def simulatePieces (l : List Piece) (f t : Position) : Option (List Piece) :=
  match l.findIdx? (fun p => decide (p.pos = f)) with
  | none => none
  | some mi =>
    let l1 := match l.findIdx? (fun p => decide (p.pos = t)) with
      | some ci => l.eraseIdx ci
      | none => l
    some (match l1.get? mi with
      | some q => l1.set mi { q with pos := t }
      | none => l1)

/-- `canPieceAttackSquareWithPieces` of the `Board.ts` validator: geometry
(and, for sliding pieces, the `isValid*Move` path test against the *live*
board `live`) combined with path clearance over the snapshot `pieces`. -/
def canPieceAttackSquareWithPieces (live : List Piece) (piece : Piece)
    (position : Position) (pieces : List Piece) : Bool :=
  match piece.ptype with
  | PAWN => canPawnAttackSquare piece position
  | KNIGHT => isValidKnightMove piece.pos position
  | BISHOP => isValidBishopMove live piece.pos position
      && isDiagonalPathClear pieces piece.pos position
  | ROOK => isValidRookMove live piece.pos position
      && isStraightPathClear pieces piece.pos position
  | QUEEN => isValidQueenMove live piece.pos position
      && (isStraightPathClear pieces piece.pos position
          || isDiagonalPathClear pieces piece.pos position)
  | KING => decide ((position.x - piece.pos.x).natAbs ≤ 1
      ∧ (position.y - piece.pos.y).natAbs ≤ 1)

/-- `wouldBeInCheck` of the `Board.ts` validator: simulate, find the king
(absent → `false`), return whether some opponent piece attacks it. -/
def wouldBeInCheckB (l : List Piece) (f t : Position)
    (kingColor : PieceColor) : Bool :=
  match simulatePieces l f t with
  | none => false
  | some l2 =>
    match l2.find? (fun p => decide (p.ptype = KING ∧ p.color = kingColor))
        with
    | none => false
    | some king =>
      l2.any (fun piece => decide (piece.color = opponent kingColor)
        && canPieceAttackSquareWithPieces l piece king.pos l2)

/-- `wouldMoveResolveCheck` of the `Board.ts` validator: same simulation,
returning `false` as soon as an opponent attacker of the king is found and
`true` otherwise (king absent → `false`). -/
def wouldMoveResolveCheck (l : List Piece) (f t : Position)
    (kingColor : PieceColor) : Bool :=
  match simulatePieces l f t with
  | none => false
  | some l2 =>
    match l2.find? (fun p => decide (p.ptype = KING ∧ p.color = kingColor))
        with
    | none => false
    | some king =>
      !(l2.any (fun piece => decide (piece.color = opponent kingColor)
        && canPieceAttackSquareWithPieces l piece king.pos l2))

/-- Steps 1–4 of `isValidMove` of the `Board.ts` validator (coordinates in
range, mover's piece at `from`, destination not own color, per-piece
geometry), before any check-safety gate. -/
def passesGatesB (l : List Piece) (f t : Position) (c : PieceColor) : Bool :=
  if !(isWithinBoard f && isWithinBoard t) then false
  else match getPieceAt l f with
    | none => false
    | some piece =>
      if piece.color ≠ c then false
      else
        let destSame : Bool := match getPieceAt l t with
          | some d => decide (d.color = piece.color)
          | none => false
        if destSame then false
        else if ¬ isValidMoveForPieceB l piece t then false
        else true

/-- `isValidMove` of the `Board.ts` validator (check-aware variant): after
the geometric gates, if the mover is currently in check the move must
resolve it, otherwise it must not newly expose the king. -/
def isValidMoveB (l : List Piece) (f t : Position) (c : PieceColor) : Bool :=
  if !(isWithinBoard f && isWithinBoard t) then false
  else match getPieceAt l f with
    | none => false
    | some piece =>
      if piece.color ≠ c then false
      else
        let destSame : Bool := match getPieceAt l t with
          | some d => decide (d.color = piece.color)
          | none => false
        if destSame then false
        else if ¬ isValidMoveForPieceB l piece t then false
        else if isInCheck l piece.color then
          wouldMoveResolveCheck l f t piece.color
        else if wouldBeInCheckB l f t piece.color then false
        else true

/-- The file coordinates `0..7`, in the loop order of the source's
destination scans. -/
def coords : List Int := [0, 1, 2, 3, 4, 5, 6, 7]

/-- The exhaustive destination scan shared (textually duplicated) by
`MoveValidator.isCheckmate` and the stalemate branch of
`Game.updateGameStatus`: some piece of the color has some destination square
accepted by `isValidMove`. -/
def hasAnyValidMove (l : List Piece) (c : PieceColor) : Bool :=
  (l.filter (fun p => decide (p.color = c))).any (fun p =>
    coords.any (fun x => coords.any (fun y => isValidMoveA l p.pos ⟨x, y⟩ c)))

/-- `MoveValidator.isCheckmate` (of the validator wired into the game):
in check and no scanned move is valid. -/
def isCheckmate (l : List Piece) (c : PieceColor) : Bool :=
  if ¬ isInCheck l c then false
  else !(hasAnyValidMove l c)

/-- `Game.updateGameStatus`, as a function of the board and the side now to
move. -/
def updateGameStatus (l : List Piece) (c : PieceColor) : GameStatus :=
  if isInCheck l c then
    if isCheckmate l c then CHECKMATE else CHECK
  else
    if !(hasAnyValidMove l c) then STALEMATE else ACTIVE

/-- The state owned by `Game`. -/
structure GameState where
  board : List Piece
  currentPlayer : PieceColor
  moveHistory : List Move
  status : GameStatus
deriving DecidableEq, Repr

/-- A freshly constructed `Game`. -/
def initialGame : GameState :=
  ⟨standardPieces, WHITE, [], ACTIVE⟩

/-- `Game.makeMove`: gate on non-terminal status, validate, apply, record,
flip the side to move, recompute status. -/
def makeMove (s : GameState) (f t : Position) : Bool × GameState :=
  if s.status ≠ ACTIVE ∧ s.status ≠ CHECK then (false, s)
  else if ¬ isValidMoveA s.board f t s.currentPlayer then (false, s)
  else match movePiece s.board f t with
    | (none, _) => (false, s)
    | (some m, l') =>
      let next := opponent s.currentPlayer
      (true, ⟨l', next, s.moveHistory ++ [m], updateGameStatus l' next⟩)

/-- `Game.resetGame`: reinstall the starting arrangement, white to move,
empty history, `active`. -/
def resetGame (_ : GameState) : GameState :=
  ⟨standardPieces, WHITE, [], ACTIVE⟩

/-- A sequence of `makeMove` calls (each call's boolean result discarded, as
a caller that fires moves blindly would). -/
def applyMoves (s : GameState) : List (Position × Position) → GameState
  | [] => s
  | (f, t) :: rest => applyMoves (makeMove s f t).2 rest

/-- `toUpperCase` restricted to the six lowercase FEN letters that
`pieceToFENChar` produces (the only strings the source ever uppercases). -/
def fenUpper : String → String
  | "p" => "P"
  | "n" => "N"
  | "b" => "B"
  | "r" => "R"
  | "q" => "Q"
  | "k" => "K"
  | s => s

/-- `StockfishService.pieceToFENChar`: lowercase piece letter, uppercased
for white. -/
def pieceToFENChar (piece : Piece) : String :=
  let c : String := match piece.ptype with
    | PAWN => "p"
    | KNIGHT => "n"
    | BISHOP => "b"
    | ROOK => "r"
    | QUEEN => "q"
    | KING => "k"
  if piece.color = WHITE then fenUpper c else c

/-- Inner file loop of `StockfishService.boardToFEN` for one rank `y`:
walks the files in `xs` carrying the pending empty-square count `n` and the
output built so far. -/
def fenRankAux (l : List Piece) (y : Int) :
    List Int → Nat → String → String
  | [], n, acc => if n > 0 then acc ++ toString n else acc
  | x :: xs, n, acc =>
    match getPieceAt l ⟨x, y⟩ with
    | some p =>
      fenRankAux l y xs 0
        ((if n > 0 then acc ++ toString n else acc) ++ pieceToFENChar p)
    | none => fenRankAux l y xs (n + 1) acc

/-- `StockfishService.boardToFEN`: ranks from `y = 7` down to `0` (a `/`
after every rank but the last), then the active color, then the constant
castling, en-passant and counter fields. -/
def boardToFEN (l : List Piece) (currentPlayer : PieceColor) : String :=
  let body := [(7 : Int), 6, 5, 4, 3, 2, 1, 0].foldl
    (fun acc y => fenRankAux l y coords 0 acc ++ (if y > 0 then "/" else ""))
    ""
  body ++ (if currentPlayer = WHITE then " w" else " b")
    ++ " KQkq" ++ " -" ++ " 0 1"

/-- Run-length encoding of one rank's squares, written directly: `n` pending
consecutive empty squares are flushed as their decimal count. -/
def rankRLEAux : List (Option Piece) → Nat → String
  | [], n => if n > 0 then toString n else ""
  | some p :: rest, n =>
    (if n > 0 then toString n else "") ++ pieceToFENChar p ++ rankRLEAux rest 0
  | none :: rest, n => rankRLEAux rest (n + 1)

/-- The specified serialization of one rank: its eight squares left-to-right
(files `0..7`), consecutive empties replaced by their count. -/
def fenRank (l : List Piece) (y : Int) : String :=
  rankRLEAux (coords.map (fun x => getPieceAt l ⟨x, y⟩)) 0

/-! ### Concrete boards used by the scenario claims -/

/-- Scenario C, also the board of the repository's own
`CheckResolution.test.ts` ("Non-king piece cannot move if it does not
resolve check"): white king e1 = (4,0), white pawn a2 = (0,1), black rook
e8 = (4,7), clear e-file. -/
def scenarioC : List Piece :=
  [ ⟨KING, WHITE, ⟨4, 0⟩, false⟩, ⟨PAWN, WHITE, ⟨0, 1⟩, false⟩,
    ⟨ROOK, BLACK, ⟨4, 7⟩, false⟩ ]

/-- Scenario B: unmoved white king e1 = (4,0), unmoved white rook
h1 = (7,0), empty squares between. -/
def scenarioB : List Piece :=
  [ ⟨KING, WHITE, ⟨4, 0⟩, false⟩, ⟨ROOK, WHITE, ⟨7, 0⟩, false⟩ ]

/-- A white pawn one step from promotion, a7 = (0,6). -/
def promoBoard : List Piece :=
  [ ⟨PAWN, WHITE, ⟨0, 6⟩, false⟩ ]

/-- A white pawn on a5 = (0,4) beside a black pawn on b5 = (1,4) whose
moved-flag is still `false` (it never moved — no preceding double step). -/
def epBoard : List Piece :=
  [ ⟨PAWN, WHITE, ⟨0, 4⟩, false⟩, ⟨PAWN, BLACK, ⟨1, 4⟩, false⟩ ]

/-- A one-piece game used to exercise a successful `makeMove`. -/
def onePawnGame : GameState :=
  ⟨[ ⟨PAWN, WHITE, ⟨0, 1⟩, false⟩ ], WHITE, [], ACTIVE⟩

/-! ### Invariant predicates -/

/-- No two pieces of the array occupy the same coordinate (executable
form). -/
def uniquePositions : List Piece → Bool
  | [] => true
  | p :: rest =>
    rest.all (fun q => !decide (q.pos = p.pos)) && uniquePositions rest

/-- Every king whose moved-flag is still clear stands on its starting
square.  This holds in every reachable state (a king only ever moves with
its flag being set) and is what makes the castling rook-target square one of
the squares whose emptiness the validator checked. -/
def KingsHome (l : List Piece) : Prop :=
  ∀ p ∈ l, p.ptype = KING → p.hasMoved = false →
    p.pos = (if p.color = WHITE then (⟨4, 0⟩ : Position) else ⟨4, 7⟩)

/-- The inductive invariant for reachable game states. -/
def GoodState (s : GameState) : Prop :=
  List.Pairwise (fun p q => p.pos ≠ q.pos) s.board ∧ KingsHome s.board

/-! ### Helper lemmas about the board primitives -/

theorem uniquePositions_iff_pairwise (l : List Piece) :
    uniquePositions l = true ↔ List.Pairwise (fun p q => p.pos ≠ q.pos) l := by
  induction l with
  | nil => simp [uniquePositions]
  | cons p rest ih =>
    rw [uniquePositions, Bool.and_eq_true, List.all_eq_true,
      List.pairwise_cons, ih]
    constructor
    · rintro ⟨h1, h2⟩
      exact ⟨fun q hq hpq => by simpa [hpq] using h1 q hq, h2⟩
    · rintro ⟨h1, h2⟩
      exact ⟨fun q hq => by simpa using fun hqp => h1 q hq hqp.symm, h2⟩

theorem natAbs_sub_comm (a b : Int) : (a - b).natAbs = (b - a).natAbs := by
  rw [← Int.natAbs_neg, neg_sub]

theorem getPieceAt_mem {l : List Piece} {pos : Position} {p : Piece}
    (h : getPieceAt l pos = some p) : p ∈ l ∧ p.pos = pos := by
  refine ⟨List.mem_of_find?_eq_some h, ?_⟩
  have := List.find?_some h
  simpa using this

theorem getPieceAt_eq_none {l : List Piece} {pos : Position} :
    getPieceAt l pos = none ↔ ∀ p ∈ l, p.pos ≠ pos := by
  simp [getPieceAt, List.find?_eq_none]

theorem getPieceAt_removePiece_self (l : List Piece) (pos : Position) :
    getPieceAt (removePiece l pos) pos = none := by
  rw [getPieceAt_eq_none]
  intro p hp
  rw [removePiece, List.mem_filter] at hp
  simpa using hp.2

theorem mem_removePiece {l : List Piece} {pos : Position} {p : Piece}
    (h : p ∈ removePiece l pos) : p ∈ l :=
  (List.mem_filter.mp h).1

theorem getPieceAt_removePiece_ne (l : List Piece) {a b : Position}
    (hne : a ≠ b) : getPieceAt (removePiece l a) b = getPieceAt l b := by
  induction l with
  | nil => rfl
  | cons p rest ih =>
    by_cases hpa : p.pos = a
    · have h1 : removePiece (p :: rest) a = removePiece rest a := by
        simp [removePiece, List.filter_cons, hpa]
      have h2 : getPieceAt (p :: rest) b = getPieceAt rest b := by
        rw [getPieceAt, List.find?_cons_of_neg]
        · rfl
        · simp [hpa, hne]
      rw [h1, h2, ih]
    · have h1 : removePiece (p :: rest) a = p :: removePiece rest a := by
        simp [removePiece, List.filter_cons, hpa]
      rw [h1]
      by_cases hpb : p.pos = b
      · rw [getPieceAt, List.find?_cons_of_pos _ (by simpa using hpb),
          getPieceAt, List.find?_cons_of_pos _ (by simpa using hpb)]
      · rw [getPieceAt, List.find?_cons_of_neg _ (by simpa using hpb),
          getPieceAt, List.find?_cons_of_neg _ (by simpa using hpb)]
        exact ih

theorem getPieceAt_removePiece_none {l : List Piece} {a b : Position}
    (h : getPieceAt l b = none) :
    getPieceAt (removePiece l a) b = none := by
  rw [getPieceAt_eq_none] at h ⊢
  exact fun p hp => h p (mem_removePiece hp)

theorem mem_updatePiecePosition {l : List Piece} {a b : Position}
    {q' : Piece} (h : q' ∈ updatePiecePosition l a b) :
    q' ∈ l ∨ ∃ q, getPieceAt l a = some q ∧ q' = { q with pos := b } := by
  induction l with
  | nil => simp [updatePiecePosition] at h
  | cons p rest ih =>
    by_cases hpa : p.pos = a
    · rw [updatePiecePosition, if_pos hpa] at h
      rcases List.mem_cons.mp h with h | h
      · exact Or.inr ⟨p, by rw [getPieceAt, List.find?_cons_of_pos _
          (by simpa using hpa)], h⟩
      · exact Or.inl (List.mem_cons_of_mem _ h)
    · rw [updatePiecePosition, if_neg hpa] at h
      rcases List.mem_cons.mp h with h | h
      · exact Or.inl (h ▸ List.mem_cons_self _ _)
      · rcases ih h with h | ⟨q, hq, hq'⟩
        · exact Or.inl (List.mem_cons_of_mem _ h)
        · exact Or.inr ⟨q, by
            rw [getPieceAt, List.find?_cons_of_neg _ (by simpa using hpa)]
            exact hq, hq'⟩

theorem mem_updatePieceAndMark {l : List Piece} {a b : Position}
    {q' : Piece} (h : q' ∈ updatePieceAndMark l a b) :
    q' ∈ l ∨ ∃ q, getPieceAt l a = some q
      ∧ q' = { q with pos := b, hasMoved := true } := by
  induction l with
  | nil => simp [updatePieceAndMark] at h
  | cons p rest ih =>
    by_cases hpa : p.pos = a
    · rw [updatePieceAndMark, if_pos hpa] at h
      rcases List.mem_cons.mp h with h | h
      · exact Or.inr ⟨p, by rw [getPieceAt, List.find?_cons_of_pos _
          (by simpa using hpa)], h⟩
      · exact Or.inl (List.mem_cons_of_mem _ h)
    · rw [updatePieceAndMark, if_neg hpa] at h
      rcases List.mem_cons.mp h with h | h
      · exact Or.inl (h ▸ List.mem_cons_self _ _)
      · rcases ih h with h | ⟨q, hq, hq'⟩
        · exact Or.inl (List.mem_cons_of_mem _ h)
        · exact Or.inr ⟨q, by
            rw [getPieceAt, List.find?_cons_of_neg _ (by simpa using hpa)]
            exact hq, hq'⟩

theorem updatePiecePosition_mem_updated {l : List Piece} {a b : Position}
    {q : Piece} (h : getPieceAt l a = some q) :
    { q with pos := b } ∈ updatePiecePosition l a b := by
  induction l with
  | nil => simp [getPieceAt] at h
  | cons p rest ih =>
    by_cases hpa : p.pos = a
    · rw [getPieceAt, List.find?_cons_of_pos _ (by simpa using hpa)] at h
      cases h
      rw [updatePiecePosition, if_pos hpa]
      exact List.mem_cons_self _ _
    · rw [getPieceAt, List.find?_cons_of_neg _ (by simpa using hpa)] at h
      rw [updatePiecePosition, if_neg hpa]
      exact List.mem_cons_of_mem _ (ih h)

theorem updatePieceAndMark_mem_updated {l : List Piece} {a b : Position}
    {q : Piece} (h : getPieceAt l a = some q) :
    { q with pos := b, hasMoved := true } ∈ updatePieceAndMark l a b := by
  induction l with
  | nil => simp [getPieceAt] at h
  | cons p rest ih =>
    by_cases hpa : p.pos = a
    · rw [getPieceAt, List.find?_cons_of_pos _ (by simpa using hpa)] at h
      cases h
      rw [updatePieceAndMark, if_pos hpa]
      exact List.mem_cons_self _ _
    · rw [getPieceAt, List.find?_cons_of_neg _ (by simpa using hpa)] at h
      rw [updatePieceAndMark, if_neg hpa]
      exact List.mem_cons_of_mem _ (ih h)

theorem mem_updatePiecePosition_of_ne {l : List Piece} {a b : Position}
    {x : Piece} (hx : x ∈ l) (hne : x.pos ≠ a) :
    x ∈ updatePiecePosition l a b := by
  induction l with
  | nil => simp at hx
  | cons p rest ih =>
    by_cases hpa : p.pos = a
    · rw [updatePiecePosition, if_pos hpa]
      rcases List.mem_cons.mp hx with h | h
      · exact absurd (h ▸ hpa) hne
      · exact List.mem_cons_of_mem _ h
    · rw [updatePiecePosition, if_neg hpa]
      rcases List.mem_cons.mp hx with h | h
      · exact h ▸ List.mem_cons_self _ _
      · exact List.mem_cons_of_mem _ (ih h)

theorem mem_updatePieceAndMark_of_ne {l : List Piece} {a b : Position}
    {x : Piece} (hx : x ∈ l) (hne : x.pos ≠ a) :
    x ∈ updatePieceAndMark l a b := by
  induction l with
  | nil => simp at hx
  | cons p rest ih =>
    by_cases hpa : p.pos = a
    · rw [updatePieceAndMark, if_pos hpa]
      rcases List.mem_cons.mp hx with h | h
      · exact absurd (h ▸ hpa) hne
      · exact List.mem_cons_of_mem _ h
    · rw [updatePieceAndMark, if_neg hpa]
      rcases List.mem_cons.mp hx with h | h
      · exact h ▸ List.mem_cons_self _ _
      · exact List.mem_cons_of_mem _ (ih h)

theorem getPieceAt_updatePiecePosition_none {l : List Piece}
    {a b d : Position} (h : getPieceAt l d = none) (hbd : b ≠ d) :
    getPieceAt (updatePiecePosition l a b) d = none := by
  rw [getPieceAt_eq_none] at h ⊢
  intro q' hq'
  rcases mem_updatePiecePosition hq' with hm | ⟨q, _, rfl⟩
  · exact h _ hm
  · simpa using hbd

theorem getPieceAt_updatePieceAndMark_none {l : List Piece}
    {a b d : Position} (h : getPieceAt l d = none) (hbd : b ≠ d) :
    getPieceAt (updatePieceAndMark l a b) d = none := by
  rw [getPieceAt_eq_none] at h ⊢
  intro q' hq'
  rcases mem_updatePieceAndMark hq' with hm | ⟨q, _, rfl⟩
  · exact h _ hm
  · simpa using hbd

theorem getPieceAt_updatePieceAndMark_target {l : List Piece}
    {f t : Position} {p : Piece} (hf : getPieceAt l f = some p)
    (ht : getPieceAt l t = none) :
    getPieceAt (updatePieceAndMark l f t) t
      = some { p with pos := t, hasMoved := true } := by
  induction l with
  | nil => simp [getPieceAt] at hf
  | cons a rest ih =>
    have hat : ¬ a.pos = t := by
      rw [getPieceAt_eq_none] at ht
      exact ht a (List.mem_cons_self _ _)
    have httail : getPieceAt rest t = none := by
      rw [getPieceAt_eq_none] at ht ⊢
      exact fun p hp => ht p (List.mem_cons_of_mem _ hp)
    by_cases haf : a.pos = f
    · rw [getPieceAt, List.find?_cons_of_pos _ (by simpa using haf)] at hf
      cases hf
      rw [updatePieceAndMark, if_pos haf, getPieceAt,
        List.find?_cons_of_pos _ (by simp)]
    · rw [getPieceAt, List.find?_cons_of_neg _ (by simpa using haf)] at hf
      rw [updatePieceAndMark, if_neg haf, getPieceAt,
        List.find?_cons_of_neg _ (by simpa using hat)]
      exact ih hf httail

theorem epHitOf_some_facts {l : List Piece} {piece e : Piece}
    {f t : Position} (h : epHitOf l piece f t = some e) :
    getPieceAt l t = none ∧ (f.x - t.x).natAbs = 1
      ∧ piece.ptype = PAWN := by
  rw [epHitOf] at h
  by_cases hc : piece.ptype = PAWN ∧ (f.x - t.x).natAbs = 1
      ∧ (f.y - t.y).natAbs = 1 ∧ getPieceAt l t = none
  · exact ⟨hc.2.2.2, hc.2.1, hc.1⟩
  · rw [if_neg hc] at h
    cases h

theorem epHitOf_none_of_captured {l : List Piece} {piece d : Piece}
    {f t : Position} (h : getPieceAt l t = some d) :
    epHitOf l piece f t = none := by
  rw [epHitOf, if_neg]
  rintro ⟨_, _, _, h4⟩
  rw [h] at h4
  cases h4

theorem castleBoard_of_not_king {l1 : List Piece} {piece : Piece}
    {f t : Position} (h : piece.ptype ≠ KING) :
    castleBoard l1 piece f t = l1 := by
  rw [castleBoard, if_neg]
  rintro ⟨h1, _⟩
  exact h h1

theorem position_ne_of_x {p q : Position} (h : p.x ≠ q.x) : p ≠ q :=
  fun he => h (by rw [he])

theorem position_ne_of_y {p q : Position} (h : p.y ≠ q.y) : p ≠ q :=
  fun he => h (by rw [he])

theorem epHitOf_none_of_not_pawn {l : List Piece} {piece : Piece}
    {f t : Position} (h : piece.ptype ≠ PAWN) :
    epHitOf l piece f t = none := by
  rw [epHitOf, if_neg]
  rintro ⟨h1, _⟩
  exact h h1

theorem getPieceAt_updatePiecePosition_ne {l : List Piece}
    {a b d : Position} (hda : d ≠ a) (hdb : d ≠ b) :
    getPieceAt (updatePiecePosition l a b) d = getPieceAt l d := by
  induction l with
  | nil => rfl
  | cons p rest ih =>
    by_cases hpa : p.pos = a
    · rw [updatePiecePosition, if_pos hpa]
      rw [getPieceAt, List.find?_cons_of_neg _ (by simpa using hdb.symm)]
      rw [getPieceAt, List.find?_cons_of_neg _
        (by simp [hpa]; exact hda.symm)]
    · rw [updatePiecePosition, if_neg hpa]
      by_cases hpd : p.pos = d
      · rw [getPieceAt, List.find?_cons_of_pos _ (by simpa using hpd),
          getPieceAt, List.find?_cons_of_pos _ (by simpa using hpd)]
      · rw [getPieceAt, List.find?_cons_of_neg _ (by simpa using hpd),
          getPieceAt, List.find?_cons_of_neg _ (by simpa using hpd)]
        exact ih

/-- The shared skeleton of the castling conclusions of C6, once the
direction-dependent corner and target squares have been fixed. -/
theorem movePiece_castle_core (l : List Piece) (kg rk : Piece)
    (f t rookPos rookTo : Position)
    (hf : getPieceAt l f = some kg) (hk : kg.ptype = KING)
    (hdx2 : (f.x - t.x).natAbs = 2)
    (hl2 : castleBoard l kg f t = updatePiecePosition l rookPos rookTo)
    (hrk : getPieceAt l rookPos = some rk)
    (hfrp : f ≠ rookPos) (hfrt : f ≠ rookTo) (hrtt : rookTo ≠ t)
    (htf : t ≠ f) :
    ∃ m, (movePiece l f t).1 = some m ∧ m.isCastling = true
      ∧ ({ kg with pos := t, hasMoved := true } ∈ (movePiece l f t).2)
      ∧ ({ rk with pos := rookTo } ∈ (movePiece l f t).2) := by
  have hepnone : epHitOf l kg f t = none :=
    epHitOf_none_of_not_pawn (by rw [hk]; simp)
  have hf2 : getPieceAt (updatePiecePosition l rookPos rookTo) f
      = some kg := by
    rw [getPieceAt_updatePiecePosition_ne hfrp hfrt]
    exact hf
  have hrk2 : ({ rk with pos := rookTo }
      ∈ updatePiecePosition l rookPos rookTo) :=
    updatePiecePosition_mem_updated hrk
  rw [movePiece, hf]
  rcases hcap : getPieceAt l t with _ | d
  · simp only [hepnone, hcap, hl2, Option.isSome_none, Bool.false_eq_true,
      false_and, if_neg, ite_false]
    refine ⟨_, rfl, by simp [hk, hdx2], ?_, ?_⟩
    · exact updatePieceAndMark_mem_updated hf2
    · exact mem_updatePieceAndMark_of_ne hrk2 (by simpa using hfrt.symm)
  · have hcond : (True ∧ ¬ (false = true)) := by simp
    simp only [hepnone, hcap, hl2, Option.isSome_none, Option.isSome_some]
    refine ⟨_, rfl, by simp [hk, hdx2], ?_, ?_⟩
    · rw [if_pos hcond]
      refine updatePieceAndMark_mem_updated ?_
      rw [getPieceAt_removePiece_ne _ htf]
      exact hf2
    · rw [if_pos hcond]
      refine mem_updatePieceAndMark_of_ne ?_ (by simpa using hfrt.symm)
      exact List.mem_filter.mpr ⟨hrk2, by simpa using hrtt⟩

theorem findIdx?_isSome_eq {α : Type} (P : α → Bool) (l : List α) :
    ∀ i, (l.findIdx? P i).isSome = (l.find? P).isSome := by
  induction l with
  | nil => intro i; rfl
  | cons x xs ih =>
    intro i
    rw [List.findIdx?_cons]
    by_cases hx : P x = true
    · rw [if_pos hx, List.find?_cons_of_pos _ hx]
      rfl
    · rw [if_neg hx, List.find?_cons_of_neg _ hx]
      exact ih (i + 1)

theorem findIdx?_spec {α : Type} (P : α → Bool) :
    ∀ (l : List α) (i ci : Nat), l.findIdx? P i = some ci →
      i ≤ ci ∧ ∃ h : ci - i < l.length,
        P (l.get ⟨ci - i, h⟩) = true
        ∧ l.find? P = some (l.get ⟨ci - i, h⟩) := by
  intro l
  induction l with
  | nil => intro i ci h; cases h
  | cons x xs ih =>
    intro i ci h
    rw [List.findIdx?_cons] at h
    by_cases hx : P x = true
    · rw [if_pos hx] at h
      cases h
      refine ⟨le_refl _, ?_⟩
      rw [Nat.sub_self]
      exact ⟨by simp, hx, List.find?_cons_of_pos _ hx⟩
    · rw [if_neg hx] at h
      obtain ⟨hle, hlt, hP, hfind⟩ := ih (i + 1) ci h
      refine ⟨by omega, ?_⟩
      have hidx : ci - i = (ci - (i + 1)) + 1 := by omega
      rw [hidx]
      refine ⟨by simpa using hlt, ?_, ?_⟩
      · simpa using hP
      · rw [List.find?_cons_of_neg _ hx]
        simpa using hfind

theorem kingP_survives_eraseIdx {c : PieceColor} :
    ∀ (l : List Piece) (ci : Nat),
      (∀ h : ci < l.length, (l.get ⟨ci, h⟩).color ≠ c) →
      (∃ x ∈ l, x.ptype = KING ∧ x.color = c) →
      ∃ x ∈ l.eraseIdx ci, x.ptype = KING ∧ x.color = c := by
  intro l
  induction l with
  | nil => rintro ci he ⟨x, hx, _⟩; cases hx
  | cons a rest ih =>
    rintro ci he ⟨x, hx, hxk, hxc⟩
    cases ci with
    | zero =>
      rcases List.mem_cons.mp hx with rfl | hx
      · exact absurd hxc (he (by simp))
      · exact ⟨x, by simpa [List.eraseIdx] using hx, hxk, hxc⟩
    | succ ci =>
      rcases List.mem_cons.mp hx with rfl | hx
      · exact ⟨x, by simp [List.eraseIdx], hxk, hxc⟩
      · obtain ⟨y, hy, hyk, hyc⟩ := ih ci
          (fun h => by simpa using he (by simpa using Nat.succ_lt_succ h))
          ⟨x, hx, hxk, hxc⟩
        exact ⟨y, by simpa [List.eraseIdx] using Or.inr hy, hyk, hyc⟩

theorem kingP_survives_set {c : PieceColor} {t : Position} :
    ∀ (l : List Piece) (mi : Nat) (q : Piece),
      l.get? mi = some q →
      (∃ x ∈ l, x.ptype = KING ∧ x.color = c) →
      ∃ x ∈ l.set mi { q with pos := t }, x.ptype = KING ∧ x.color = c := by
  intro l
  induction l with
  | nil => intro mi q h; cases h
  | cons a rest ih =>
    rintro mi q hq ⟨x, hx, hxk, hxc⟩
    cases mi with
    | zero =>
      rcases List.mem_cons.mp hx with rfl | hx
      · have : x = q := by simpa using hq
        subst this
        exact ⟨{ x with pos := t }, by simp [List.set], hxk, hxc⟩
      · exact ⟨x, by simp [List.set, hx], hxk, hxc⟩
    | succ mi =>
      rcases List.mem_cons.mp hx with rfl | hx
      · exact ⟨x, by simp [List.set], hxk, hxc⟩
      · obtain ⟨y, hy, hyk, hyc⟩ := ih mi q (by simpa using hq)
          ⟨x, hx, hxk, hxc⟩
        exact ⟨y, by simp [List.set, hy], hyk, hyc⟩

theorem simulatePieces_king_present {l : List Piece} {f t : Position}
    {c : PieceColor} {l2 : List Piece}
    (hs : simulatePieces l f t = some l2)
    (hstep3 : ∀ d, getPieceAt l t = some d → d.color ≠ c)
    (hking : ∃ k ∈ l, k.ptype = KING ∧ k.color = c) :
    ∃ k ∈ l2, k.ptype = KING ∧ k.color = c := by
  rw [simulatePieces] at hs
  rcases hmi : l.findIdx? (fun p => decide (p.pos = f)) with _ | mi <;>
    rw [hmi] at hs
  · cases hs
  · have hl1 : ∀ l1 : List Piece,
        (∃ k ∈ l1, k.ptype = KING ∧ k.color = c) →
        (match l1.get? mi with
          | some q => l1.set mi { q with pos := t }
          | none => l1) = l2 →
        ∃ k ∈ l2, k.ptype = KING ∧ k.color = c := by
      intro l1 hk1 heq
      rcases hq : l1.get? mi with _ | q <;> rw [hq] at heq
      · exact heq ▸ hk1
      · exact heq ▸ kingP_survives_set l1 mi q hq hk1
    rcases hci : l.findIdx? (fun p => decide (p.pos = t)) with _ | ci <;>
      rw [hci] at hs
    · exact hl1 l hking (by injection hs)
    · have hspec := findIdx?_spec (fun p => decide (p.pos = t)) l 0 ci hci
      obtain ⟨-, hlt, hP, hfind⟩ := hspec
      have he : ∀ h : ci < l.length, (l.get ⟨ci, h⟩).color ≠ c := by
        intro h
        have hPt : (l.get ⟨ci - 0, by simpa using h⟩).pos = t := by
          simpa using hP
        have := hstep3 (l.get ⟨ci - 0, by simpa using h⟩) hfind
        simpa using this
      exact hl1 (l.eraseIdx ci)
        (kingP_survives_eraseIdx l ci he hking) (by injection hs)

theorem resolve_eq_not_wouldBeInCheckB {l : List Piece} {f t : Position}
    {c : PieceColor} {piece : Piece}
    (hm : getPieceAt l f = some piece)
    (hstep3 : ∀ d, getPieceAt l t = some d → d.color ≠ c)
    (hking : ∃ k ∈ l, k.ptype = KING ∧ k.color = c) :
    wouldMoveResolveCheck l f t c = !wouldBeInCheckB l f t c := by
  have hmf : (l.findIdx? (fun p => decide (p.pos = f))).isSome = true := by
    rw [findIdx?_isSome_eq]
    rw [getPieceAt] at hm
    rw [hm]
    rfl
  have hsim : ∃ l2, simulatePieces l f t = some l2 := by
    rw [simulatePieces]
    rcases hmi : l.findIdx? (fun p => decide (p.pos = f)) with _ | mi
    · rw [hmi] at hmf; cases hmf
    · rw [hmi]
      exact ⟨_, rfl⟩
  obtain ⟨l2, hs⟩ := hsim
  obtain ⟨k, hkmem, hkk, hkc⟩ :=
    simulatePieces_king_present hs hstep3 hking
  have hfk : (l2.find? (fun p =>
      decide (p.ptype = KING ∧ p.color = c))).isSome = true :=
    List.find?_isSome.mpr ⟨k, hkmem, by simp [hkk, hkc]⟩
  rcases hfk2 : l2.find? (fun p => decide (p.ptype = KING ∧ p.color = c))
      with _ | king
  · rw [hfk2] at hfk; cases hfk
  · simp only [wouldMoveResolveCheck, wouldBeInCheckB, hs, hfk2]

theorem gateB_core {l : List Piece} {f t : Position} {c : PieceColor}
    {piece : Piece}
    (hf : getPieceAt l f = some piece)
    (hstep3 : ∀ d, getPieceAt l t = some d → d.color ≠ c) :
    (if isInCheck l c then wouldMoveResolveCheck l f t c
     else if wouldBeInCheckB l f t c then false else true)
      = !wouldBeInCheckB l f t c := by
  cases hchk : isInCheck l c
  · simp only [Bool.false_eq_true, if_neg, ite_false]
    cases hwb : wouldBeInCheckB l f t c <;> simp
  · simp only [if_pos, ite_true]
    refine resolve_eq_not_wouldBeInCheckB hf hstep3 ?_
    rw [isInCheck] at hchk
    rcases hfk : l.find? (fun p => decide (p.ptype = KING ∧ p.color = c))
        with _ | king
    · rw [hfk] at hchk; cases hchk
    · have hmem := List.mem_of_find?_eq_some hfk
      have hpred := List.find?_some hfk
      simp only [decide_eq_true_eq] at hpred
      exact ⟨king, hmem, hpred.1, hpred.2⟩

/-! ### Lemmas feeding the reachable-state invariant (C7) -/

theorem castleBoard_eq_or (l1 : List Piece) (piece : Piece)
    (f t : Position) :
    castleBoard l1 piece f t = l1
    ∨ (piece.ptype = KING ∧ (f.x - t.x).natAbs = 2
       ∧ ∃ rook, getPieceAt l1 ⟨if t.x > f.x then 7 else 0, f.y⟩ = some rook
         ∧ rook.ptype = ROOK
         ∧ castleBoard l1 piece f t = updatePiecePosition l1
             ⟨if t.x > f.x then 7 else 0, f.y⟩
             ⟨if t.x > f.x then f.x + 1 else f.x - 1, f.y⟩) := by
  rw [castleBoard]
  by_cases hc : (piece.ptype = KING ∧ (f.x - t.x).natAbs = 2)
  · rw [if_pos hc]
    rcases hrk : getPieceAt l1 ⟨if t.x > f.x then 7 else 0, f.y⟩
        with _ | rook
    · exact Or.inl rfl
    · by_cases hrt : rook.ptype = ROOK
      · exact Or.inr ⟨hc.1, hc.2, rook, rfl, hrt, by simp [hrt]⟩
      · exact Or.inl (by simp [hrt])
  · exact Or.inl (by rw [if_neg hc])

theorem isValidMoveA_extract {l : List Piece} {f t : Position}
    {c : PieceColor} (h : isValidMoveA l f t c = true) :
    ∃ piece, getPieceAt l f = some piece ∧ piece.color = c
      ∧ (∀ d, getPieceAt l t = some d → d.color ≠ piece.color)
      ∧ isValidMoveForPieceA l piece t = true := by
  rw [isValidMoveA] at h
  by_cases hW : (isWithinBoard f && isWithinBoard t) = true
  · rw [if_neg (by simp [hW])] at h
    rcases hf : getPieceAt l f with _ | piece
    · simp [hf] at h
    · simp only [hf] at h
      by_cases hcol : piece.color = c
      · rw [if_neg (by simp [hcol])] at h
        rcases hds : getPieceAt l t with _ | d <;> simp only [hds] at h
        · by_cases hgeom : isValidMoveForPieceA l piece t = true
          · exact ⟨piece, rfl, hcol, fun d hd => Option.noConfusion hd,
              hgeom⟩
          · rw [if_neg (by simp), if_pos (by simp [hgeom])] at h
            simp at h
        · by_cases hdc : d.color = piece.color
          · rw [if_pos (by simp [hdc])] at h
            simp at h
          · rw [if_neg (by simp [hdc])] at h
            by_cases hgeom : isValidMoveForPieceA l piece t = true
            · refine ⟨piece, rfl, hcol, fun d' hd' => ?_, hgeom⟩
              injection hd' with h'
              rw [← h']
              exact hdc
            · rw [if_pos (by simp [hgeom])] at h
              simp at h
      · rw [if_pos (by simp [hcol])] at h
        simp at h
  · have hW' : (isWithinBoard f && isWithinBoard t) = false := by
      cases hb : (isWithinBoard f && isWithinBoard t)
      · rfl
      · exact absurd hb hW
    rw [if_pos (by rw [hW']; rfl)] at h
    simp at h

theorem isValidKingMove_castle_extract {l : List Piece} {king : Piece}
    {t : Position} (hk2 : (t.x - king.pos.x).natAbs = 2)
    (h : isValidKingMove l king t = true) :
    t.y = king.pos.y ∧ king.hasMoved = false
    ∧ (t.x > king.pos.x →
        isStraightPathClear l king.pos ⟨6, king.pos.y⟩ = true)
    ∧ (t.x < king.pos.x →
        isStraightPathClear l king.pos ⟨1, king.pos.y⟩ = true) := by
  rw [isValidKingMove] at h
  rw [if_neg (by rw [hk2]; rintro ⟨h1, -⟩; omega)] at h
  by_cases hcond : ((t.y - king.pos.y).natAbs = 0
      ∧ (t.x - king.pos.x).natAbs = 2 ∧ king.hasMoved = false)
  · obtain ⟨hdy0, -, hmv⟩ := hcond
    have hty : t.y = king.pos.y := by omega
    rw [if_pos ⟨hdy0, hk2, hmv⟩] at h
    refine ⟨hty, hmv, ?_, ?_⟩
    · intro hgt
      rw [if_pos hgt] at h
      rcases hrk : getPieceAt l ⟨7, king.pos.y⟩ with _ | rook <;>
        simp only [hrk] at h
      · cases h
      · by_cases hbad : (rook.ptype ≠ ROOK ∨ rook.hasMoved = true)
        · rw [if_pos hbad] at h; cases h
        · rw [if_neg hbad] at h
          simp only [Bool.and_eq_true] at h
          exact h.1.1
    · intro hlt
      rw [if_neg (by omega), if_pos hlt] at h
      rcases hrk : getPieceAt l ⟨0, king.pos.y⟩ with _ | rook <;>
        simp only [hrk] at h
      · cases h
      · by_cases hbad : (rook.ptype ≠ ROOK ∨ rook.hasMoved = true)
        · rw [if_pos hbad] at h; cases h
        · rw [if_neg hbad] at h
          simp only [Bool.and_eq_true] at h
          exact h.1.1
  · rw [if_neg hcond] at h
    cases h

theorem pathClear_kingside_empty {l : List Piece} {y : Int}
    (h : isStraightPathClear l ⟨4, y⟩ ⟨6, y⟩ = true) :
    getPieceAt l ⟨5, y⟩ = none := by
  rcases hocc : getPieceAt l ⟨5, y⟩ with _ | p
  · rfl
  · rw [isStraightPathClear] at h
    norm_num at h
    rw [straightPathClearAux, if_neg (by norm_num)] at h
    rw [hocc] at h
    simp at h

theorem pathClear_queenside_empty {l : List Piece} {y : Int}
    (h : isStraightPathClear l ⟨4, y⟩ ⟨1, y⟩ = true) :
    getPieceAt l ⟨3, y⟩ = none := by
  rcases hocc : getPieceAt l ⟨3, y⟩ with _ | p
  · rfl
  · rw [isStraightPathClear] at h
    norm_num at h
    rw [straightPathClearAux, if_neg (by norm_num)] at h
    rw [hocc] at h
    simp at h

theorem pairwise_removePiece {l : List Piece} (pos : Position)
    (hu : List.Pairwise (fun p q => p.pos ≠ q.pos) l) :
    List.Pairwise (fun p q => p.pos ≠ q.pos) (removePiece l pos) :=
  List.Pairwise.sublist (List.filter_sublist l) hu

theorem pairwise_updatePiecePosition {l : List Piece} {a b : Position}
    (hu : List.Pairwise (fun p q => p.pos ≠ q.pos) l)
    (hb : getPieceAt l b = none) :
    List.Pairwise (fun p q => p.pos ≠ q.pos) (updatePiecePosition l a b) := by
  induction l with
  | nil => exact List.Pairwise.nil
  | cons p rest ih =>
    obtain ⟨h1, h2⟩ := List.pairwise_cons.mp hu
    rw [getPieceAt_eq_none] at hb
    have hbtail : getPieceAt rest b = none := by
      rw [getPieceAt_eq_none]
      exact fun q hq => hb q (List.mem_cons_of_mem _ hq)
    by_cases hpa : p.pos = a
    · rw [updatePiecePosition, if_pos hpa]
      rw [List.pairwise_cons]
      exact ⟨fun q hq => (hb q (List.mem_cons_of_mem _ hq)).symm, h2⟩
    · rw [updatePiecePosition, if_neg hpa]
      rw [List.pairwise_cons]
      refine ⟨fun q' hq' => ?_, ih h2 hbtail⟩
      rcases mem_updatePiecePosition hq' with hm | ⟨q, _, rfl⟩
      · exact h1 q' hm
      · exact hb p (List.mem_cons_self _ _)

theorem pairwise_updatePieceAndMark {l : List Piece} {a b : Position}
    (hu : List.Pairwise (fun p q => p.pos ≠ q.pos) l)
    (hb : getPieceAt l b = none) :
    List.Pairwise (fun p q => p.pos ≠ q.pos) (updatePieceAndMark l a b) := by
  induction l with
  | nil => exact List.Pairwise.nil
  | cons p rest ih =>
    obtain ⟨h1, h2⟩ := List.pairwise_cons.mp hu
    rw [getPieceAt_eq_none] at hb
    have hbtail : getPieceAt rest b = none := by
      rw [getPieceAt_eq_none]
      exact fun q hq => hb q (List.mem_cons_of_mem _ hq)
    by_cases hpa : p.pos = a
    · rw [updatePieceAndMark, if_pos hpa]
      rw [List.pairwise_cons]
      exact ⟨fun q hq => (hb q (List.mem_cons_of_mem _ hq)).symm, h2⟩
    · rw [updatePieceAndMark, if_neg hpa]
      rw [List.pairwise_cons]
      refine ⟨fun q' hq' => ?_, ih h2 hbtail⟩
      rcases mem_updatePieceAndMark hq' with hm | ⟨q, _, rfl⟩
      · exact h1 q' hm
      · exact hb p (List.mem_cons_self _ _)

theorem mem_castleBoard {l1 : List Piece} {piece q : Piece}
    {f t : Position} (h : q ∈ castleBoard l1 piece f t) :
    q ∈ l1 ∨ q.ptype = ROOK := by
  rcases castleBoard_eq_or l1 piece f t with heq | ⟨-, -, rook, hrk, hrt, heq⟩
  · rw [heq] at h
    exact Or.inl h
  · rw [heq] at h
    rcases mem_updatePiecePosition h with hm | ⟨q0, hq0, rfl⟩
    · exact Or.inl hm
    · right
      rw [hq0] at hrk
      injection hrk with h'
      rw [← h'] at hrt
      exact hrt

/-- The board after the castling side effect is still duplicate-free, and a
destination square that was empty stays empty — provided the move passed
the validator's geometric gates and the board satisfies the reachable-state
invariant (kings with a clear moved-flag are at home, which pins `from` to
the file-4 square whose rook-target square the validator checked for
emptiness). -/
theorem castle_l2_good {l : List Piece} {piece : Piece} {f t : Position}
    (hu : List.Pairwise (fun p q => p.pos ≠ q.pos) l) (hkh : KingsHome l)
    (hf : getPieceAt l f = some piece)
    (hgeom : isValidMoveForPieceA l piece t = true) :
    List.Pairwise (fun p q => p.pos ≠ q.pos) (castleBoard l piece f t)
    ∧ (getPieceAt l t = none →
        getPieceAt (castleBoard l piece f t) t = none) := by
  rcases castleBoard_eq_or l piece f t
      with heq | ⟨hK, hdx2, rook, hrk, hrt, heq⟩
  · rw [heq]
    exact ⟨hu, fun h => h⟩
  · have hpos : piece.pos = f := (getPieceAt_mem hf).2
    have hkv : isValidKingMove l piece t = true := by
      simp only [isValidMoveForPieceA, hK] at hgeom
      exact hgeom
    have hk2 : (t.x - piece.pos.x).natAbs = 2 := by
      rw [hpos, natAbs_sub_comm]
      exact hdx2
    obtain ⟨hty, hmv, hks, hqs⟩ := isValidKingMove_castle_extract hk2 hkv
    have hhome := hkh piece (getPieceAt_mem hf).1 hK hmv
    have hfx : f.x = 4 := by
      rcases hc : piece.color with _ | _ <;> rw [hc] at hhome <;>
        rw [← hpos, hhome] <;> simp
    have hfeq : f = ⟨4, f.y⟩ := by
      rcases hfp : f with ⟨fx, fy⟩
      rw [hfp] at hfx
      simp at hfx ⊢
      exact hfx
    have htx : t.x = 6 ∨ t.x = 2 := by
      rw [hpos, hfeq] at hk2
      simp at hk2
      omega
    rcases htx with htx | htx
    · have hdir : t.x > f.x := by omega
      have hpath : isStraightPathClear l ⟨4, f.y⟩ ⟨6, f.y⟩ = true := by
        have := hks (by rw [hpos]; exact hdir)
        rw [hpos, hfeq] at this
        have h6 : t.x = 6 := htx
        calc isStraightPathClear l ⟨4, f.y⟩ ⟨6, f.y⟩
            = isStraightPathClear l ⟨4, f.y⟩
                ⟨6, (⟨4, f.y⟩ : Position).y⟩ := rfl
          _ = true := this
      have hempty : getPieceAt l ⟨5, f.y⟩ = none :=
        pathClear_kingside_empty hpath
      have hrookto : (⟨if t.x > f.x then f.x + 1 else f.x - 1, f.y⟩
          : Position) = ⟨5, f.y⟩ := by
        rw [if_pos hdir, hfx]
        norm_num
      rw [heq, hrookto]
      constructor
      · exact pairwise_updatePiecePosition hu hempty
      · intro hcap
        refine getPieceAt_updatePiecePosition_none hcap ?_
        exact position_ne_of_x (by simp [htx])
    · have hdir : ¬ (t.x > f.x) := by omega
      have hlt : t.x < f.x := by omega
      have hpath : isStraightPathClear l ⟨4, f.y⟩ ⟨1, f.y⟩ = true := by
        have := hqs (by rw [hpos]; exact hlt)
        rw [hpos, hfeq] at this
        calc isStraightPathClear l ⟨4, f.y⟩ ⟨1, f.y⟩
            = isStraightPathClear l ⟨4, f.y⟩
                ⟨1, (⟨4, f.y⟩ : Position).y⟩ := rfl
          _ = true := this
      have hempty : getPieceAt l ⟨3, f.y⟩ = none :=
        pathClear_queenside_empty hpath
      have hrookto : (⟨if t.x > f.x then f.x + 1 else f.x - 1, f.y⟩
          : Position) = ⟨3, f.y⟩ := by
        rw [if_neg hdir, hfx]
        norm_num
      rw [heq, hrookto]
      constructor
      · exact pairwise_updatePiecePosition hu hempty
      · intro hcap
        refine getPieceAt_updatePiecePosition_none hcap ?_
        exact position_ne_of_x (by simp [htx])

theorem kingsHome_movePiece (l : List Piece) (f t : Position)
    (hkh : KingsHome l) : KingsHome (movePiece l f t).2 := by
  rcases hf : getPieceAt l f with _ | piece
  · rw [movePiece, hf]
    exact hkh
  · rw [movePiece, hf]
    rcases hep : epHitOf l piece f t with _ | e
    · rcases hcap : getPieceAt l t with _ | d
      · simp only [hep, hcap, Option.isSome_none, Bool.false_eq_true,
          false_and, if_neg, ite_false]
        intro q hq hqk hqm
        rcases mem_updatePieceAndMark hq with hq3 | ⟨q0, -, rfl⟩
        · rcases mem_castleBoard hq3 with hm | hrook
          · exact hkh q hm hqk hqm
          · exact absurd hrook (by rw [hqk]; simp)
        · simp at hqm
      · have hcond : (True ∧ ¬ (false = true)) := by simp
        simp only [hep, hcap, Option.isSome_none, Option.isSome_some]
        rw [if_pos hcond]
        intro q hq hqk hqm
        rcases mem_updatePieceAndMark hq with hq3 | ⟨q0, -, rfl⟩
        · rcases mem_castleBoard (mem_removePiece hq3) with hm | hrook
          · exact hkh q hm hqk hqm
          · exact absurd hrook (by rw [hqk]; simp)
        · simp at hqm
    · simp only [hep, Option.isSome_some, not_true, and_false,
        Bool.true_eq_false, if_neg, ite_false]
      intro q hq hqk hqm
      rcases mem_updatePieceAndMark hq with hq3 | ⟨q0, -, rfl⟩
      · rcases mem_castleBoard hq3 with hm | hrook
        · exact hkh q (mem_removePiece hm) hqk hqm
        · exact absurd hrook (by rw [hqk]; simp)
      · simp at hqm

theorem pairwise_movePiece {l : List Piece} {f t : Position}
    {c : PieceColor}
    (hu : List.Pairwise (fun p q => p.pos ≠ q.pos) l) (hkh : KingsHome l)
    (hv : isValidMoveA l f t c = true) :
    List.Pairwise (fun p q => p.pos ≠ q.pos) (movePiece l f t).2 := by
  obtain ⟨piece, hf, hcol, hstep3, hgeom⟩ := isValidMoveA_extract hv
  rw [movePiece, hf]
  obtain ⟨hpw2, hnone2⟩ := castle_l2_good hu hkh hf hgeom
  rcases hep : epHitOf l piece f t with _ | e
  · rcases hcap : getPieceAt l t with _ | d
    · simp only [hep, hcap, Option.isSome_none, Bool.false_eq_true,
        false_and, if_neg, ite_false]
      exact pairwise_updatePieceAndMark hpw2 (hnone2 hcap)
    · have hcond : (True ∧ ¬ (false = true)) := by simp
      simp only [hep, hcap, Option.isSome_none, Option.isSome_some]
      rw [if_pos hcond]
      exact pairwise_updatePieceAndMark (pairwise_removePiece t hpw2)
        (getPieceAt_removePiece_self _ t)
  · obtain ⟨hcapn, -, hpawn⟩ := epHitOf_some_facts hep
    have hcb : castleBoard (removePiece l ⟨t.x, f.y⟩) piece f t
        = removePiece l ⟨t.x, f.y⟩ :=
      castleBoard_of_not_king (by rw [hpawn]; simp)
    simp only [hep, hcapn, Option.isSome_some, not_true, and_false,
      Bool.true_eq_false, if_neg, ite_false, hcb]
    exact pairwise_updatePieceAndMark (pairwise_removePiece _ hu)
      (getPieceAt_removePiece_none hcapn)

theorem goodState_makeMove (s : GameState) (f t : Position)
    (h : GoodState s) : GoodState (makeMove s f t).2 := by
  obtain ⟨hu, hkh⟩ := h
  rw [makeMove]
  by_cases h1 : s.status ≠ ACTIVE ∧ s.status ≠ CHECK
  · rw [if_pos h1]
    exact ⟨hu, hkh⟩
  · rw [if_neg h1]
    by_cases h2 : isValidMoveA s.board f t s.currentPlayer = true
    · rw [if_neg (by simp [h2])]
      have hpw := pairwise_movePiece hu hkh h2
      have hkh2 := kingsHome_movePiece s.board f t hkh
      rcases hmp : movePiece s.board f t with ⟨om, l'⟩
      rw [hmp] at hpw hkh2
      cases om
      · exact ⟨hu, hkh⟩
      · exact ⟨hpw, hkh2⟩
    · rw [if_pos (by simp [h2])]
      exact ⟨hu, hkh⟩

theorem applyMoves_good (ms : List (Position × Position)) :
    ∀ s, GoodState s → GoodState (applyMoves s ms) := by
  induction ms with
  | nil => exact fun s h => h
  | cons m rest ih =>
    rcases m with ⟨mf, mt⟩
    exact fun s h => ih _ (goodState_makeMove s mf mt h)

theorem initial_goodState : GoodState initialGame := by
  constructor
  · rw [← uniquePositions_iff_pairwise]
    decide
  · intro p hp hk hm
    fin_cases hp <;> simp_all

/-! ### Lemmas about the position serializer -/

theorem fenRankAux_append (l : List Piece) (y : Int) :
    ∀ (xs : List Int) (n : Nat) (acc : String),
      fenRankAux l y xs n acc
        = acc ++ rankRLEAux (xs.map fun x => getPieceAt l ⟨x, y⟩) n := by
  intro xs
  induction xs with
  | nil =>
    intro n acc
    by_cases hn : n > 0 <;>
      simp [fenRankAux, rankRLEAux, hn, String.append_empty]
  | cons x xs ih =>
    intro n acc
    rcases hx : getPieceAt l ⟨x, y⟩ with _ | p
    · simp only [fenRankAux, hx, List.map_cons, rankRLEAux, ih]
    · simp only [fenRankAux, hx, List.map_cons, rankRLEAux, ih]
      by_cases hn : n > 0 <;>
        simp [hn, String.append_assoc, String.empty_append,
          String.append_empty]

/-! ### Lemmas about the game state machine -/

theorem makeMove_success_parts (s : GameState) (f t : Position)
    (h : (makeMove s f t).1 = true) :
    ∃ m l', movePiece s.board f t = (some m, l')
      ∧ (makeMove s f t).2 = ⟨l', opponent s.currentPlayer,
          s.moveHistory ++ [m], updateGameStatus l' (opponent s.currentPlayer)⟩
      ∧ (s.status = ACTIVE ∨ s.status = CHECK)
      ∧ isValidMoveA s.board f t s.currentPlayer = true := by
  unfold makeMove at h ⊢
  by_cases h1 : s.status ≠ ACTIVE ∧ s.status ≠ CHECK
  · simp [h1] at h
  · rw [if_neg h1] at h ⊢
    by_cases h2 : isValidMoveA s.board f t s.currentPlayer = true
    · rw [if_neg (by simp [h2])] at h ⊢
      rcases hmp : movePiece s.board f t with ⟨om, l'⟩
      cases om with
      | none => rw [hmp] at h; simp at h
      | some m =>
        refine ⟨m, l', rfl, rfl, ?_, h2⟩
        rcases hst : s.status with _ | _ | _ | _ | _ <;>
          simp [hst] at h1 ⊢
    · rw [if_pos (by simp [h2])] at h
      simp at h

theorem updateGameStatus_cases (l : List Piece) (c : PieceColor) :
    updateGameStatus l c =
      (if isInCheck l c then
        (if hasAnyValidMove l c then CHECK else CHECKMATE)
      else
        (if hasAnyValidMove l c then ACTIVE else STALEMATE)) := by
  unfold updateGameStatus isCheckmate
  by_cases h : isInCheck l c = true
  · simp only [h, if_pos, if_true, not_true]
    cases hm : hasAnyValidMove l c <;> simp [hm]
  · simp only [Bool.not_eq_true] at h
    simp only [h]
    cases hm : hasAnyValidMove l c <;> simp [hm]

theorem updateGameStatus_ne_draw (l : List Piece) (c : PieceColor) :
    updateGameStatus l c ≠ DRAW := by
  rw [updateGameStatus_cases]
  split <;> split <;> simp

/-! ### Claim theorems -/

/-- C1 (code bug witnessed): on the Scenario C board — the very board of the
repository's `CheckResolution.test.ts` — the white king is in check from the
black rook on the e-file, the white pawn move a2→a3 neither blocks the
e-file nor captures the rook (applying it leaves the king attacked), and yet
`isValidMove` of `MoveValidator.ts` accepts it, because the temporary board
that `wouldBeInCheck` builds loses the copied pieces (`movePiece(p, p)`
self-captures), so the check test runs on a board without the white king. -/
theorem mvA_accepts_move_leaving_king_in_check :
    isInCheck scenarioC WHITE = true
    ∧ isValidMoveA scenarioC ⟨0, 1⟩ ⟨0, 2⟩ WHITE = true
    ∧ isInCheck (movePiece scenarioC ⟨0, 1⟩ ⟨0, 2⟩).2 WHITE = true := by
  decide

/-- C2 (counterexample): the two validator implementations are not
observably equivalent — on the Scenario C board the unconditional-gate
variant (`MoveValidator.ts`) accepts the pawn move a2→a3 while the
check-aware variant embedded in `Board.ts` rejects it. -/
theorem validator_variants_differ :
    isValidMoveA scenarioC ⟨0, 1⟩ ⟨0, 2⟩ WHITE = true
    ∧ isValidMoveB scenarioC ⟨0, 1⟩ ⟨0, 2⟩ WHITE = false := by
  decide

/-- C5 (counterexample): moving the white pawn a7→a8 produces a move record
whose promotion field is queen, but the piece standing on a8 afterwards is
still a pawn — `Board.movePiece` never rewrites the piece's kind. -/
theorem promotion_keeps_pawn_kind :
    ((movePiece promoBoard ⟨0, 6⟩ ⟨0, 7⟩).1.map Move.promotion
      = some (some QUEEN))
    ∧ ((getPieceAt (movePiece promoBoard ⟨0, 6⟩ ⟨0, 7⟩).2 ⟨0, 7⟩).map
        Piece.ptype = some PAWN)
    ∧ ¬ ((getPieceAt (movePiece promoBoard ⟨0, 6⟩ ⟨0, 7⟩).2 ⟨0, 7⟩).map
        Piece.ptype = some QUEEN) := by
  decide

/-- C3: `makeMove` fails silently — returning `false` with the state intact
— when the status is terminal (`checkmate`/`stalemate`/`draw`) or the
validator rejects the move; when it returns `true` it has applied the move
through the board, appended exactly that move's record to the history,
flipped the side to move, and recomputed the status from the new board and
new side to move. -/
theorem makeMove_gate_and_effects (s : GameState) (f t : Position) :
    ((s.status = CHECKMATE ∨ s.status = STALEMATE ∨ s.status = DRAW) →
      makeMove s f t = (false, s))
    ∧ (isValidMoveA s.board f t s.currentPlayer = false →
      makeMove s f t = (false, s))
    ∧ ((makeMove s f t).1 = true →
      ∃ m, movePiece s.board f t = (some m, (makeMove s f t).2.board)
        ∧ (makeMove s f t).2.moveHistory = s.moveHistory ++ [m]
        ∧ (makeMove s f t).2.currentPlayer = opponent s.currentPlayer
        ∧ (makeMove s f t).2.status = updateGameStatus
            ((makeMove s f t).2.board) (opponent s.currentPlayer)) := by
  refine ⟨?_, ?_, ?_⟩
  · intro h
    rcases h with h | h | h <;> simp [makeMove, h]
  · intro h
    unfold makeMove
    by_cases h1 : s.status ≠ ACTIVE ∧ s.status ≠ CHECK
    · rw [if_pos h1]
    · rw [if_neg h1, if_pos (by simp [h])]
  · intro h
    obtain ⟨m, l', hmp, h2, _, _⟩ := makeMove_success_parts s f t h
    exact ⟨m, by rw [h2]; exact hmp, by rw [h2], by rw [h2], by rw [h2]⟩

/-- Witness for C3: on a one-white-pawn game the move a2→a3 succeeds, and
the theorem yields the four success effects at that input. -/
theorem makeMove_gate_and_effects_witness :
    ∃ m, movePiece onePawnGame.board ⟨0, 1⟩ ⟨0, 2⟩ =
        (some m, (makeMove onePawnGame ⟨0, 1⟩ ⟨0, 2⟩).2.board)
      ∧ (makeMove onePawnGame ⟨0, 1⟩ ⟨0, 2⟩).2.moveHistory =
          onePawnGame.moveHistory ++ [m]
      ∧ (makeMove onePawnGame ⟨0, 1⟩ ⟨0, 2⟩).2.currentPlayer =
          opponent onePawnGame.currentPlayer
      ∧ (makeMove onePawnGame ⟨0, 1⟩ ⟨0, 2⟩).2.status = updateGameStatus
          ((makeMove onePawnGame ⟨0, 1⟩ ⟨0, 2⟩).2.board)
          (opponent onePawnGame.currentPlayer) :=
  (makeMove_gate_and_effects onePawnGame ⟨0, 1⟩ ⟨0, 2⟩).2.2 (by decide)

/-- C4: after every successful `makeMove` the new status is `checkmate`
when the side now to move is in check with no scanned legal move, `check`
when in check with one, `stalemate` when not in check with none, `active`
otherwise — and the recomputation never yields `draw`. -/
theorem status_recomputation_correct (s : GameState) (f t : Position)
    (s' : GameState) (h : makeMove s f t = (true, s')) :
    (s'.status =
      if isInCheck s'.board s'.currentPlayer then
        (if hasAnyValidMove s'.board s'.currentPlayer then CHECK
         else CHECKMATE)
      else
        (if hasAnyValidMove s'.board s'.currentPlayer then ACTIVE
         else STALEMATE))
    ∧ s'.status ≠ DRAW
    ∧ (∀ (l : List Piece) (c : PieceColor), updateGameStatus l c ≠ DRAW) := by
  have h1 : (makeMove s f t).1 = true := by rw [h]
  obtain ⟨m, l', hmp, h2, _, _⟩ := makeMove_success_parts s f t h1
  have hs' : s' = ⟨l', opponent s.currentPlayer, s.moveHistory ++ [m],
      updateGameStatus l' (opponent s.currentPlayer)⟩ := by
    rw [← h2, h]
  refine ⟨?_, ?_, fun l c => updateGameStatus_ne_draw l c⟩
  · rw [hs']
    exact updateGameStatus_cases l' (opponent s.currentPlayer)
  · rw [hs']
    exact updateGameStatus_ne_draw l' (opponent s.currentPlayer)

/-- Witness for C4: the successful move a2→a3 of the one-pawn game leaves
black with no pieces and not in check, so the recomputed status is
`stalemate`, as the characterization demands. -/
theorem status_recomputation_correct_witness :
    (((makeMove onePawnGame ⟨0, 1⟩ ⟨0, 2⟩).2).status =
      if isInCheck ((makeMove onePawnGame ⟨0, 1⟩ ⟨0, 2⟩).2).board
          ((makeMove onePawnGame ⟨0, 1⟩ ⟨0, 2⟩).2).currentPlayer then
        (if hasAnyValidMove ((makeMove onePawnGame ⟨0, 1⟩ ⟨0, 2⟩).2).board
            ((makeMove onePawnGame ⟨0, 1⟩ ⟨0, 2⟩).2).currentPlayer then CHECK
         else CHECKMATE)
      else
        (if hasAnyValidMove ((makeMove onePawnGame ⟨0, 1⟩ ⟨0, 2⟩).2).board
            ((makeMove onePawnGame ⟨0, 1⟩ ⟨0, 2⟩).2).currentPlayer then ACTIVE
         else STALEMATE))
    ∧ ((makeMove onePawnGame ⟨0, 1⟩ ⟨0, 2⟩).2).status ≠ DRAW
    ∧ (∀ (l : List Piece) (c : PieceColor), updateGameStatus l c ≠ DRAW) :=
  status_recomputation_correct onePawnGame ⟨0, 1⟩ ⟨0, 2⟩
    (makeMove onePawnGame ⟨0, 1⟩ ⟨0, 2⟩).2 (by decide)

/-- C9: the position descriptor is the eight ranks serialized from rank 7
down to rank 0 separated by `/`, each rank its files 0..7 left-to-right with
consecutive empty squares replaced by their run-length count, then the side
to move, then — irrespective of the board, in particular of any moved-flag —
the constant full castling rights `KQkq` (and the constant en-passant and
counter fields). -/
theorem fen_serialization_shape (l : List Piece) (c : PieceColor) :
    boardToFEN l c =
      fenRank l 7 ++ "/" ++ fenRank l 6 ++ "/" ++ fenRank l 5 ++ "/"
        ++ fenRank l 4 ++ "/" ++ fenRank l 3 ++ "/" ++ fenRank l 2 ++ "/"
        ++ fenRank l 1 ++ "/" ++ fenRank l 0
      ++ (if c = WHITE then " w" else " b") ++ " KQkq - 0 1" := by
  unfold boardToFEN fenRank
  simp only [List.foldl_cons, List.foldl_nil, fenRankAux_append]
  norm_num [String.append_assoc, String.empty_append]
  rw [(by decide : (" KQkq" ++ (" -" ++ " 0 1") : String) = " KQkq - 0 1")]

/-- C7: in every game state reachable from the initial position by any
sequence of `makeMove` calls, no two pieces occupy the same coordinate.
The invariant holds in the starting arrangement and is preserved by every
applied move — captures and en-passant removals only delete pieces, the
moving piece lands on a square just vacated or already empty, and the
castling rook lands on the square whose emptiness the validator checked
(kings with a clear moved-flag are pinned to their home squares, which is
itself part of the preserved invariant). -/
theorem no_two_pieces_share_coordinate (ms : List (Position × Position)) :
    uniquePositions (applyMoves initialGame ms).board = true := by
  rw [uniquePositions_iff_pairwise]
  exact (applyMoves_good ms initialGame initial_goodState).1

/-- C8: `resetGame` after any sequence of `makeMove` calls yields exactly
the freshly-constructed game: the standard 32-piece starting arrangement
(all moved-flags clear), white to move, empty history, status `active`. -/
theorem reset_restores_initial :
    (∀ ms : List (Position × Position),
      resetGame (applyMoves initialGame ms) = initialGame)
    ∧ initialGame.board = standardPieces
    ∧ standardPieces.length = 32
    ∧ standardPieces.all (fun p => !p.hasMoved) = true
    ∧ initialGame.currentPlayer = WHITE
    ∧ initialGame.moveHistory = []
    ∧ initialGame.status = ACTIVE :=
  ⟨fun _ => rfl, rfl, rfl, by decide, rfl, rfl, rfl⟩

/-- C2 (amended): the check-aware branching of the `Board.ts` validator is
observably the unconditional gate over its own clone-and-test — for every
board, move and mover, its `isValidMove` equals the geometric gates (steps
1–4) conjoined with the negated `wouldBeInCheck` of the same class.  (The
two repository implementations themselves are not equivalent; see the
counterexample.) -/
theorem checkAware_equals_unconditional_gate (l : List Piece)
    (f t : Position) (c : PieceColor) :
    isValidMoveB l f t c
      = (passesGatesB l f t c && !wouldBeInCheckB l f t c) := by
  simp only [isValidMoveB, passesGatesB]
  cases hW : (isWithinBoard f && isWithinBoard t)
  · simp
  · simp only [Bool.not_true, Bool.false_eq_true, if_neg, ite_false,
      Bool.not_false]
    rcases hf : getPieceAt l f with _ | piece
    · simp
    · by_cases hcol : piece.color = c
      · simp only [hcol, ne_eq, not_true, if_neg, ite_false, if_false]
        rcases hds : getPieceAt l t with _ | d
        · simp only [Bool.false_eq_true, if_neg, ite_false]
          cases hgeom : isValidMoveForPieceB l piece t
          · simp
          · simp only [Bool.not_true, Bool.false_eq_true, if_neg,
              ite_false, Bool.true_and]
            exact gateB_core hf (fun d hd => by rw [hds] at hd; cases hd)
        · by_cases hdc : d.color = c
          · simp [hdc]
          · simp only [hdc, decide_eq_true_eq, if_neg, ite_false,
              Bool.false_eq_true]
            cases hgeom : isValidMoveForPieceB l piece t
            · simp
            · simp only [Bool.not_true, Bool.false_eq_true, if_neg,
                ite_false, Bool.true_and]
              refine gateB_core hf (fun d' hd' => ?_)
              rw [hds] at hd'
              injection hd' with h
              rw [← h]
              exact hdc
      · simp [hcol]

/-- C5 (amended): for every board in which a pawn occupies `from` (and
`from ≠ to`), `Board.movePiece(from, to)` with `to` on the farthest rank for
the pawn's color returns a record whose promotion field is queen, but the
piece standing on `to` afterwards still has kind pawn — the promotion is
recorded, never applied to the piece. -/
theorem promotion_marks_record_only (l : List Piece) (pawn : Piece)
    (f t : Position)
    (hf : getPieceAt l f = some pawn) (hp : pawn.ptype = PAWN)
    (hrank : (pawn.color = WHITE ∧ t.y = 7) ∨ (pawn.color = BLACK ∧ t.y = 0))
    (hne : f ≠ t) :
    ∃ m, (movePiece l f t).1 = some m ∧ m.promotion = some QUEEN
      ∧ (getPieceAt (movePiece l f t).2 t).map Piece.ptype = some PAWN := by
  have hcastle2 := fun l1 =>
    @castleBoard_of_not_king l1 pawn f t (by rw [hp]; simp)
  rw [movePiece, hf]
  rcases hcap : getPieceAt l t with _ | d
  · rcases hep : epHitOf l pawn f t with _ | e
    · simp only [hep, hcap, hcastle2, Option.isSome_none, Bool.false_eq_true,
        false_and, if_neg, ite_false, Option.map]
      refine ⟨_, rfl, ?_, ?_⟩
      · simp [hp, hrank]
      · rw [getPieceAt_updatePieceAndMark_target hf hcap]
        simp [hp]
    · obtain ⟨-, hdx, -⟩ := epHitOf_some_facts hep
      have hepne : (⟨t.x, f.y⟩ : Position) ≠ f := by
        intro he
        have : t.x = f.x := by rw [← he]
        rw [this] at hdx
        simp at hdx
      have hf1 : getPieceAt (removePiece l ⟨t.x, f.y⟩) f = some pawn := by
        rw [getPieceAt_removePiece_ne l hepne]
        exact hf
      have ht1 : getPieceAt (removePiece l ⟨t.x, f.y⟩) t = none :=
        getPieceAt_removePiece_none hcap
      simp only [hep, hcap, hcastle2, Option.isSome_none, Bool.false_eq_true,
        false_and, if_neg, ite_false, Option.map]
      refine ⟨_, rfl, ?_, ?_⟩
      · simp [hp, hrank]
      · rw [getPieceAt_updatePieceAndMark_target hf1 ht1]
        simp [hp]
  · have hep := @epHitOf_none_of_captured l pawn d f t hcap
    have hf3 : getPieceAt (removePiece l t) f = some pawn := by
      rw [getPieceAt_removePiece_ne l (Ne.symm hne)]
      exact hf
    have ht3 : getPieceAt (removePiece l t) t = none :=
      getPieceAt_removePiece_self l t
    simp only [hep, hcap, hcastle2, Option.isSome_none, Option.isSome_some,
      Option.map]
    refine ⟨_, rfl, ?_, ?_⟩
    · simp [hp, hrank]
    · have hcond : (True ∧ ¬ (false = true)) := by simp
      rw [if_pos hcond, getPieceAt_updatePieceAndMark_target hf3 ht3]
      simp [hp]

/-- Witness for C5's amended theorem: the white pawn a7→a8 of `promoBoard`
gets a queen-marked record while the piece on a8 stays a pawn. -/
theorem promotion_marks_record_only_witness :
    ∃ m, (movePiece promoBoard ⟨0, 6⟩ ⟨0, 7⟩).1 = some m
      ∧ m.promotion = some QUEEN
      ∧ (getPieceAt (movePiece promoBoard ⟨0, 6⟩ ⟨0, 7⟩).2 ⟨0, 7⟩).map
          Piece.ptype = some PAWN :=
  promotion_marks_record_only promoBoard ⟨PAWN, WHITE, ⟨0, 6⟩, false⟩
    ⟨0, 6⟩ ⟨0, 7⟩ (by decide) rfl (by decide) (by decide)

/-- C6: whenever a king stands on `from` and `to` is two files away on the
same rank (both on the board) with a rook on the corresponding corner
(`x = 7` kingside, `x = 0` queenside), a single `Board.movePiece` call
moves the king to `to` (flag set) and relocates that rook to the square
immediately adjacent to the king's destination on the king's side
(`from.x ± 1`); and in Scenario B (unmoved white king e1, unmoved white rook
h1, empty in between) the move (4,0)→(6,0) is accepted by the game's
validator and leaves the rook on (5,0). -/
theorem castling_relocates_rook :
    (∀ (l : List Piece) (kg rk : Piece) (f t : Position),
      getPieceAt l f = some kg → kg.ptype = KING →
      t.y = f.y → (t.x = f.x + 2 ∨ t.x = f.x - 2) →
      isWithinBoard f = true → isWithinBoard t = true →
      getPieceAt l ⟨if t.x > f.x then 7 else 0, f.y⟩ = some rk →
      rk.ptype = ROOK →
      ∃ m, (movePiece l f t).1 = some m ∧ m.isCastling = true
        ∧ ({ kg with pos := t, hasMoved := true } ∈ (movePiece l f t).2)
        ∧ ({ rk with pos := ⟨if t.x > f.x then f.x + 1 else f.x - 1, f.y⟩ }
            ∈ (movePiece l f t).2))
    ∧ (isValidMoveA scenarioB ⟨4, 0⟩ ⟨6, 0⟩ WHITE = true
      ∧ getPieceAt (movePiece scenarioB ⟨4, 0⟩ ⟨6, 0⟩).2 ⟨5, 0⟩
          = some ⟨ROOK, WHITE, ⟨5, 0⟩, false⟩
      ∧ getPieceAt (movePiece scenarioB ⟨4, 0⟩ ⟨6, 0⟩).2 ⟨6, 0⟩
          = some ⟨KING, WHITE, ⟨6, 0⟩, true⟩) := by
  constructor
  · intro l kg rk f t hf hk hy hx hwf hwt hr hrt
    simp only [isWithinBoard, decide_eq_true_eq] at hwf hwt
    obtain ⟨hfx0, hfx8, hfy0, hfy8⟩ := hwf
    obtain ⟨htx0, htx8, hty0, hty8⟩ := hwt
    by_cases hdir : t.x > f.x
    · have hxx : t.x = f.x + 2 := by rcases hx with h | h <;> omega
      have hdx2 : (f.x - t.x).natAbs = 2 := by
        rw [(by omega : f.x - t.x = -2)]
        rfl
      simp only [if_pos hdir] at hr ⊢
      have hl2 : castleBoard l kg f t
          = updatePiecePosition l ⟨7, f.y⟩ ⟨f.x + 1, f.y⟩ := by
        rw [castleBoard, if_pos ⟨hk, hdx2⟩]
        simp only [if_pos hdir]
        rw [hr]
        simp [hrt]
      exact movePiece_castle_core l kg rk f t ⟨7, f.y⟩ ⟨f.x + 1, f.y⟩
        hf hk hdx2 hl2 hr
        (position_ne_of_x (show f.x ≠ 7 by omega))
        (position_ne_of_x (show f.x ≠ f.x + 1 by omega))
        (position_ne_of_x (show f.x + 1 ≠ t.x by omega))
        (position_ne_of_x (show t.x ≠ f.x by omega))
    · have hxx : t.x = f.x - 2 := by rcases hx with h | h <;> omega
      have hdx2 : (f.x - t.x).natAbs = 2 := by
        rw [(by omega : f.x - t.x = 2)]
        rfl
      simp only [if_neg hdir] at hr ⊢
      have hl2 : castleBoard l kg f t
          = updatePiecePosition l ⟨0, f.y⟩ ⟨f.x - 1, f.y⟩ := by
        rw [castleBoard, if_pos ⟨hk, hdx2⟩]
        simp only [if_neg hdir]
        rw [hr]
        simp [hrt]
      exact movePiece_castle_core l kg rk f t ⟨0, f.y⟩ ⟨f.x - 1, f.y⟩
        hf hk hdx2 hl2 hr
        (position_ne_of_x (show f.x ≠ 0 by omega))
        (position_ne_of_x (show f.x ≠ f.x - 1 by omega))
        (position_ne_of_x (show f.x - 1 ≠ t.x by omega))
        (position_ne_of_x (show t.x ≠ f.x by omega))
  · refine ⟨by decide, by decide, by decide⟩

/-- Witness for C6 at Scenario B: the kingside castle (4,0)→(6,0) produces a
castling-flagged record, the king on (6,0) with its flag set, and the rook
on (5,0). -/
theorem castling_relocates_rook_witness :
    ∃ m, (movePiece scenarioB ⟨4, 0⟩ ⟨6, 0⟩).1 = some m
      ∧ m.isCastling = true
      ∧ ((⟨KING, WHITE, ⟨6, 0⟩, true⟩ : Piece)
          ∈ (movePiece scenarioB ⟨4, 0⟩ ⟨6, 0⟩).2)
      ∧ ((⟨ROOK, WHITE, ⟨5, 0⟩, false⟩ : Piece)
          ∈ (movePiece scenarioB ⟨4, 0⟩ ⟨6, 0⟩).2) :=
  castling_relocates_rook.1 scenarioB ⟨KING, WHITE, ⟨4, 0⟩, false⟩
    ⟨ROOK, WHITE, ⟨7, 0⟩, false⟩ ⟨4, 0⟩ ⟨6, 0⟩ (by decide) rfl rfl
    (Or.inl (by decide)) (by decide) (by decide) (by decide) rfl

/-- C10: in the validator wired into the game, a pawn's one-square diagonal
move onto an empty destination is geometrically valid whenever any opposing
pawn stands on `(to.x, from.y)` — with no condition on that pawn's rank or
moved-flag and none on the preceding ply — and applying such a move through
`Board.movePiece` removes that pawn and marks the record as en passant. -/
theorem en_passant_unconditional_and_applied (l : List Piece)
    (pawn q : Piece) (f t : Position) (c : PieceColor)
    (hf : getPieceAt l f = some pawn) (hp : pawn.ptype = PAWN)
    (hc : pawn.color = c)
    (hdx : (t.x - f.x).natAbs = 1)
    (hdy : t.y = f.y + (if c = WHITE then 1 else -1))
    (hto : getPieceAt l t = none)
    (hq : getPieceAt l ⟨t.x, f.y⟩ = some q) (hqp : q.ptype = PAWN)
    (hqc : q.color ≠ c) :
    isValidPawnMoveA l pawn t = true
    ∧ ∃ m, (movePiece l f t).1 = some m ∧ m.isEnPassant = true
        ∧ m.capturedPiece = some q
        ∧ getPieceAt (movePiece l f t).2 ⟨t.x, f.y⟩ = none := by
  have hpos : pawn.pos = f := (getPieceAt_mem hf).2
  have hxne : f.x ≠ t.x := by
    intro he
    rw [he] at hdx
    simp at hdx
  have hyne : t.y ≠ f.y := by
    rcases c with _ | _ <;> simp at hdy <;> omega
  have hdy' : (f.y - t.y).natAbs = 1 := by
    rcases c with _ | _ <;> simp at hdy <;> omega
  have hdx' : (f.x - t.x).natAbs = 1 := by rw [natAbs_sub_comm]; exact hdx
  have htne : t ≠ (⟨t.x, f.y⟩ : Position) := by
    intro he
    exact hyne (by rw [he])
  have hvalid : isValidPawnMoveA l pawn t = true := by
    rw [isValidPawnMoveA]
    rw [if_neg (by rw [hpos]; rintro ⟨h1, _⟩; exact hxne h1)]
    rw [if_neg (by rw [hpos]; rintro ⟨h1, _⟩; exact hxne h1)]
    rw [if_pos (by rw [hpos]; rw [hc]; exact ⟨hdx, hdy⟩)]
    rw [hpos, hto, hq]
    have hqc' : ¬ q.color = pawn.color := fun h => hqc (hc ▸ h)
    simp [hqp, hqc']
  refine ⟨hvalid, ?_⟩
  have hep : epHitOf l pawn f t = some q := by
    rw [epHitOf, if_pos ⟨hp, hdx', hdy', hto⟩, hq]
    simp [hqp]
  have hcastle : ∀ l1, castleBoard l1 pawn f t = l1 := by
    intro l1
    rw [castleBoard, if_neg]
    rintro ⟨h1, _⟩
    rw [hp] at h1
    exact absurd h1 (by simp)
  rw [movePiece, hf]
  simp only [hep, hto, hcastle, Option.isSome_none, Option.isSome_some]
  refine ⟨_, rfl, rfl, rfl, ?_⟩
  simp only [Bool.false_eq_true, false_and, if_neg, ite_false]
  exact getPieceAt_updatePieceAndMark_none
    (getPieceAt_removePiece_self l ⟨t.x, f.y⟩) htne

/-- Witness for C10: white pawn a5, black pawn b5 with moved-flag still
clear (no preceding double step); a5→b6 is accepted and its application
removes the b5 pawn, marking the record en passant. -/
theorem en_passant_unconditional_and_applied_witness :
    isValidPawnMoveA epBoard ⟨PAWN, WHITE, ⟨0, 4⟩, false⟩ ⟨1, 5⟩ = true
    ∧ ∃ m, (movePiece epBoard ⟨0, 4⟩ ⟨1, 5⟩).1 = some m
        ∧ m.isEnPassant = true
        ∧ m.capturedPiece = some ⟨PAWN, BLACK, ⟨1, 4⟩, false⟩
        ∧ getPieceAt (movePiece epBoard ⟨0, 4⟩ ⟨1, 5⟩).2 ⟨1, 4⟩ = none :=
  en_passant_unconditional_and_applied epBoard
    ⟨PAWN, WHITE, ⟨0, 4⟩, false⟩ ⟨PAWN, BLACK, ⟨1, 4⟩, false⟩
    ⟨0, 4⟩ ⟨1, 5⟩ WHITE (by decide) rfl rfl (by decide) (by decide)
    (by decide) (by decide) rfl (by decide)

end Chess
